import Mathlib

/-!
# Verification of the `scanner` Go package

A shallow embedding of `src/scanner.go` (package `scanner`): a cursor over a
byte string that decodes UTF-8 runes, normalizes line breaks (CR, LF, CRLF all
pop as LF) and elides backslash-line-break continuations, while tracking byte
offset, line and column.

Modelling conventions:
* A Go `string` is a byte sequence, modelled as `List Nat` (each byte < 256 in
  well-formed inputs; the decoder treats anything ≥ 0x80 that is not a valid
  sequence as Go's `utf8.RuneError` with width 1, exactly like the Go library).
* A Go `rune` is an `Int` (Go's `rune` is `int32`; the scanner's `EOF` sentinel
  is `-1`).
* Go `int` fields (`Offset`, `Line`, `Col`) are `Int` (they can go negative via
  `SetPos`, which the code deliberately permits).
* The recursive `Pop` is embedded with explicit fuel (`popFuel`); `Pop` runs it
  with fuel `text.length + 1`, which is proved sufficient (`popFuel_eq_pop`).
* Go string slicing `text[lo:hi]` panics when `¬(0 ≤ lo ≤ hi ≤ len)`; the two
  operations that slice (`Slice`, `SliceInc`) therefore return `Option`,
  `none` standing for a runtime panic.
* Operations that mutate the scanner take and return a `Scanner` value.
-/

/-- `EOF` sentinel rune of the scanner (`const EOF rune = -1`). -/
def EOF : Int := -1

/-- Go's `utf8.RuneError` (U+FFFD). -/
def runeError : Int := 0xFFFD

/-- The `first` / `acceptRanges` tables of Go's `unicode/utf8` package, for a
leading byte ≥ 0x80: `some (size, lo, hi)` gives the sequence length and the
accept range for the second byte; `none` marks an invalid leading byte. -/
def utf8Info (c0 : Nat) : Option (Nat × Nat × Nat) :=
  if 0xC2 ≤ c0 ∧ c0 ≤ 0xDF then some (2, 0x80, 0xBF)
  else if c0 = 0xE0 then some (3, 0xA0, 0xBF)
  else if 0xE1 ≤ c0 ∧ c0 ≤ 0xEC then some (3, 0x80, 0xBF)
  else if c0 = 0xED then some (3, 0x80, 0x9F)
  else if 0xEE ≤ c0 ∧ c0 ≤ 0xEF then some (3, 0x80, 0xBF)
  else if c0 = 0xF0 then some (4, 0x90, 0xBF)
  else if 0xF1 ≤ c0 ∧ c0 ≤ 0xF3 then some (4, 0x80, 0xBF)
  else if c0 = 0xF4 then some (4, 0x80, 0x8F)
  else none

/-- Model of Go's `utf8.DecodeRuneInString`: decode the first rune of a byte
sequence, returning the rune and the number of bytes consumed.  Empty input
gives `(RuneError, 0)`; an invalid encoding gives `(RuneError, 1)`. -/
def decodeRune (s : List Nat) : Int × Nat :=
  match s with
  | [] => (runeError, 0)
  | c0 :: rest =>
    if c0 < 0x80 then ((c0 : Int), 1)
    else
      match utf8Info c0 with
      | none => (runeError, 1)
      | some (sz, lo, hi) =>
        match rest with
        | [] => (runeError, 1)
        | b1 :: rest2 =>
          if b1 < lo ∨ hi < b1 then (runeError, 1)
          else if sz = 2 then (((c0 % 0x20) * 0x40 + b1 % 0x40 : Nat), 2)
          else match rest2 with
          | [] => (runeError, 1)
          | b2 :: rest3 =>
            if b2 < 0x80 ∨ 0xBF < b2 then (runeError, 1)
            else if sz = 3 then
              (((c0 % 0x10) * 0x1000 + (b1 % 0x40) * 0x40 + b2 % 0x40 : Nat), 3)
            else match rest3 with
            | [] => (runeError, 1)
            | b3 :: _ =>
              if b3 < 0x80 ∨ 0xBF < b3 then (runeError, 1)
              else
                (((c0 % 0x08) * 0x40000 + (b1 % 0x40) * 0x1000
                    + (b2 % 0x40) * 0x40 + b3 % 0x40 : Nat), 4)

/-- Model of Go's conversion of a rune to a string (`utf8.EncodeRune`): the
UTF-8 bytes of the rune, with out-of-range values (negative, surrogate, or
above U+10FFFF) encoded as U+FFFD. -/
def encodeRune (r : Int) : List Nat :=
  if r < 0 ∨ (0xD800 ≤ r ∧ r ≤ 0xDFFF) ∨ 0x10FFFF < r then [0xEF, 0xBF, 0xBD]
  else
    let n := r.toNat
    if n < 0x80 then [n]
    else if n < 0x800 then [0xC0 + n / 0x40, 0x80 + n % 0x40]
    else if n < 0x10000 then
      [0xE0 + n / 0x1000, 0x80 + (n / 0x40) % 0x40, 0x80 + n % 0x40]
    else
      [0xF0 + n / 0x40000, 0x80 + (n / 0x1000) % 0x40,
       0x80 + (n / 0x40) % 0x40, 0x80 + n % 0x40]

/-- `TextPosition`: byte offset, 1-based line, 1-based column. -/
structure TextPosition where
  Offset : Int
  Line : Int
  Col : Int
deriving DecidableEq, Repr

/-- `RuneSpan`: a rune together with the position it starts at and the
position just after it. -/
structure RuneSpan where
  Rune : Int
  Pos : TextPosition
  End : TextPosition
deriving DecidableEq, Repr

/-- `Scanner`: current position (the embedded `TextPosition` field of the Go
struct, called `pos` here), the immutable text, the marked position and the
`isComplexSinceMark` dirty flag. -/
structure Scanner where
  pos : TextPosition
  text : List Nat
  markedPos : TextPosition
  isComplexSinceMark : Bool
deriving DecidableEq, Repr

/-- `NewScannerAt`: scanner over `text` starting (and marked) at the given
position, dirty flag clear. -/
def NewScannerAt (text : List Nat) (startingPosition : TextPosition) : Scanner :=
  { pos := startingPosition
    text := text
    markedPos := startingPosition
    isComplexSinceMark := false }

/-- `NewScanner`: scanner over `text` at offset 0, line 1, column 1. -/
def NewScanner (text : List Nat) : Scanner :=
  NewScannerAt text { Offset := 0, Line := 1, Col := 1 }

/-- `SetPos`: overwrite the current position unconditionally. -/
def Scanner.SetPos (s : Scanner) (p : TextPosition) : Scanner :=
  { s with pos := p }

/-- `IsEOF`: the offset is negative or at/past the byte length of the text. -/
def Scanner.IsEOF (s : Scanner) : Bool :=
  decide (s.pos.Offset < 0 ∨ (s.text.length : Int) ≤ s.pos.Offset)

/-- `Mark`: record the current position as slice start and clear the dirty
flag. -/
def Scanner.Mark (s : Scanner) : Scanner :=
  { s with markedPos := s.pos, isComplexSinceMark := false }

/-- `Marked`: the last marked position. -/
def Scanner.Marked (s : Scanner) : TextPosition :=
  s.markedPos

/-- One step of `Pop`, with explicit fuel bounding the recursion depth of the
backslash branch.  With fuel 0 the function returns `EOF` without moving; this
case is unreachable for fuel greater than the remaining byte count
(`popFuel_eq_pop`).  Mirrors `Pop` of `src/scanner.go` line by line:
EOF guard; decode and advance (offset by the rune width, column by one); then
the `'\n'`, `'\r'` (CRLF lookahead, dirty flag, normalize to LF) and `'\\'`
(recursive lookahead, restore the position after the backslash when the next
logical rune is not LF, otherwise elide and pop again) branches. -/
def popFuel : Nat → Scanner → Int × Scanner
  | 0, s => (EOF, s)
  | fuel + 1, s =>
    if s.IsEOF then (EOF, s)
    else
      let rw := decodeRune (s.text.drop s.pos.Offset.toNat)
      let r := rw.1
      let w := rw.2
      let s1 : Scanner :=
        { s with pos := { s.pos with Offset := s.pos.Offset + w, Col := s.pos.Col + 1 } }
      if r = 10 then
        (10, { s1 with pos := { s1.pos with Line := s1.pos.Line + 1, Col := 1 } })
      else if r = 13 then
        let s2 : Scanner :=
          { s1 with pos := { s1.pos with Line := s1.pos.Line + 1, Col := 1 },
                    isComplexSinceMark := true }
        let s3 : Scanner :=
          if s2.IsEOF then s2
          else
            let nrw := decodeRune (s2.text.drop s2.pos.Offset.toNat)
            if nrw.1 = 10 then
              { s2 with pos := { s2.pos with Offset := s2.pos.Offset + nrw.2 } }
            else s2
        (10, s3)
      else if r = 92 then
        let savedPos := s1.pos
        let rs2 := popFuel fuel s1
        if rs2.1 ≠ 10 then
          (92, { rs2.2 with pos := savedPos })
        else
          popFuel fuel { rs2.2 with isComplexSinceMark := true }
      else
        (r, s1)

/-- `Pop`: run `popFuel` with provably sufficient fuel. -/
def Scanner.Pop (s : Scanner) : Int × Scanner :=
  popFuel (s.text.length + 1) s

/-- `PopSpan`: the popped rune with its start and end positions. -/
def Scanner.PopSpan (s : Scanner) : RuneSpan × Scanner :=
  let startPos := s.pos
  let rs := s.Pop
  ({ Rune := rs.1, Pos := startPos, End := rs.2.pos }, rs.2)

/-- `Peek`: pop, then restore the saved position.  Note that only the
`TextPosition` is restored: any change the internal pop made to the dirty
flag persists, exactly as in the source. -/
def Scanner.Peek (s : Scanner) : Int × Scanner :=
  let savedPos := s.pos
  let rs := s.Pop
  (rs.1, { rs.2 with pos := savedPos })

/-- `PeekSpan`: pop a span, then restore the position to the span start. -/
def Scanner.PeekSpan (s : Scanner) : RuneSpan × Scanner :=
  let sp := s.PopSpan
  (sp.1, { sp.2 with pos := sp.1.Pos })

/-- `Next`: pop (discarding the rune), then peek. -/
def Scanner.Next (s : Scanner) : Int × Scanner :=
  (s.Pop).2.Peek

/-- `NextSpan`: pop (discarding), then peek a span. -/
def Scanner.NextSpan (s : Scanner) : RuneSpan × Scanner :=
  (s.Pop).2.PeekSpan

/-- Helper for `replaceAll`, with explicit fuel bounding the number of steps;
`fuel = s.length` is always sufficient for a non-empty pattern
(`replaceAllFuel_irrel`). -/
def replaceAllFuel : Nat → List Nat → List Nat → List Nat → List Nat
  | 0, s, _, _ => s
  | f + 1, s, pat, rep =>
    match s with
    | [] => []
    | b :: tl =>
      if pat.isPrefixOf (b :: tl) then
        rep ++ replaceAllFuel f ((b :: tl).drop pat.length) pat rep
      else
        b :: replaceAllFuel f tl pat rep

/-- Go `strings.ReplaceAll` on byte sequences, for a non-empty pattern:
left-to-right, non-overlapping, no rescanning of replaced text.  (For an empty
pattern the Go function behaves differently; the scanner only uses the
patterns `"\r\n"`, `"\r"` and `"\\\n"`, all non-empty, and this model returns
the input unchanged in that unused case.) -/
def replaceAll (s pat rep : List Nat) : List Nat :=
  if pat = [] then s else replaceAllFuel s.length s pat rep

/-- The normalization `Slice` applies when the dirty flag is set: CRLF → LF,
then CR → LF, then delete every backslash-LF pair, in that order. -/
def normalizeSlice (sl : List Nat) : List Nat :=
  replaceAll (replaceAll (replaceAll sl [13, 10] [10]) [13] [10]) [92, 10] []

/-- Go string slicing `text[lo:hi]` (assuming `0 ≤ lo ≤ hi ≤ len`). -/
def substr (text : List Nat) (lo hi : Int) : List Nat :=
  (text.drop lo.toNat).take (hi - lo).toNat

/-- `Slice`: empty when the mark is at/past the end of the text; otherwise the
raw bytes from mark to current position, normalized when the dirty flag is
set.  `none` models the Go slicing panic when `¬(0 ≤ lo ≤ hi ≤ len)`. -/
def Scanner.Slice (s : Scanner) : Option (List Nat) :=
  if (s.text.length : Int) ≤ s.markedPos.Offset then some []
  else if 0 ≤ s.markedPos.Offset ∧ s.markedPos.Offset ≤ s.pos.Offset ∧
          s.pos.Offset ≤ (s.text.length : Int) then
    let slice := substr s.text s.markedPos.Offset s.pos.Offset
    some (if s.isComplexSinceMark then normalizeSlice slice else slice)
  else none

/-- `SliceInc`: like `Slice` but the end boundary is the byte offset reached
by one internal `Pop`; only the `TextPosition` is restored afterwards, so a
dirty-flag change made by that pop persists in the returned scanner (and is
already visible to the normalization decision of this very call), exactly as
in the source.  Returns the produced string (`none` = panic) together with
the scanner state after the call. -/
def Scanner.SliceInc (s : Scanner) : Option (List Nat) × Scanner :=
  if (s.text.length : Int) ≤ s.markedPos.Offset then (some [], s)
  else
    let savedPos := s.pos
    let rs := s.Pop
    let endIdx := rs.2.pos.Offset
    let s2 : Scanner := { rs.2 with pos := savedPos }
    if 0 ≤ s2.markedPos.Offset ∧ s2.markedPos.Offset ≤ endIdx ∧
       endIdx ≤ (s2.text.length : Int) then
      let slice := substr s2.text s2.markedPos.Offset endIdx
      (some (if s2.isComplexSinceMark then normalizeSlice slice else slice), s2)
    else (none, s2)

/-- Pop until the sentinel is produced (at most `fuel` pops), collecting the
non-sentinel runes; returns the collected runes and the final state. -/
def popAllFuel : Nat → Scanner → List Int × Scanner
  | 0, s => ([], s)
  | fuel + 1, s =>
    let rs := s.Pop
    if rs.1 = EOF then ([], rs.2)
    else
      let rest := popAllFuel fuel rs.2
      (rs.1 :: rest.1, rest.2)

/-- Pop until the sentinel with provably sufficient fuel. -/
def popAll (s : Scanner) : List Int × Scanner :=
  popAllFuel (s.text.length + 1) s

/-- Iterate `Pop` `n` times, keeping only the state. -/
def popNState : Nat → Scanner → Scanner
  | 0, s => s
  | n + 1, s => popNState n (s.Pop).2

/-- A chain of escaped line breaks: each element of `brks` is the byte form of
one line break (`[10]`, `[13]` or `[13, 10]`), preceded by a backslash. -/
def escBreaks (brks : List (List Nat)) : List Nat :=
  (brks.map (fun b => 92 :: b)).flatten

/-- Whether a byte sequence contains a backslash immediately followed by LF
(the pattern deleted by `normalizeSlice`'s third pass). -/
def hasEscPair : List Nat → Bool
  | [] => false
  | [_] => false
  | a :: b :: tl => (a == 92 && b == 10) || hasEscPair (b :: tl)

/-- Whether a byte sequence contains two consecutive backslashes (the pattern
on which `Pop`'s chained elision and `Slice`'s flat replacement diverge). -/
def hasDoubleBackslash : List Nat → Bool
  | [] => false
  | [_] => false
  | a :: b :: tl => (a == 92 && b == 92) || hasDoubleBackslash (b :: tl)

/-- Valid UTF-8 per Go's decoder: a sequence of runs each accepted by the
`utf8Info` table (ASCII byte, or a leading byte followed by continuation
bytes within the accept ranges). -/
def utf8Valid : List Nat → Bool
  | [] => true
  | c0 :: tl =>
    if c0 < 0x80 then utf8Valid tl
    else
      match utf8Info c0 with
      | none => false
      | some (sz, lo, hi) =>
        match sz, tl with
        | 2, b1 :: tl2 =>
          decide (lo ≤ b1 ∧ b1 ≤ hi) && utf8Valid tl2
        | 3, b1 :: b2 :: tl3 =>
          decide (lo ≤ b1 ∧ b1 ≤ hi) && decide (0x80 ≤ b2 ∧ b2 ≤ 0xBF) && utf8Valid tl3
        | 4, b1 :: b2 :: b3 :: tl4 =>
          decide (lo ≤ b1 ∧ b1 ≤ hi) && decide (0x80 ≤ b2 ∧ b2 ≤ 0xBF) &&
            decide (0x80 ≤ b3 ∧ b3 ≤ 0xBF) && utf8Valid tl4
        | _, _ => false

/-- Invariant of every scanner state reachable from a `Mark` by a sequence of
`Pop`s: the mark offset is nonnegative and at most the current offset; the
current offset stays within the text (unless nothing was consumed); the
consumed range never ends immediately before a byte its last chunk would have
absorbed (a CR is never followed by an unconsumed LF, a literal backslash is
never followed by LF or CR); and while the dirty flag is clear the consumed
range contains no CR byte and no backslash-LF pair. -/
def ReachInv (s : Scanner) : Prop :=
  0 ≤ s.markedPos.Offset ∧ s.markedPos.Offset ≤ s.pos.Offset ∧
  (s.pos.Offset ≤ (s.text.length : Int) ∨ s.pos.Offset = s.markedPos.Offset) ∧
  ((substr s.text s.markedPos.Offset s.pos.Offset).getLast? = some 13 →
    (s.text.drop s.pos.Offset.toNat).head? ≠ some 10) ∧
  ((substr s.text s.markedPos.Offset s.pos.Offset).getLast? = some 92 →
    (s.text.drop s.pos.Offset.toNat).head? ≠ some 10 ∧
    (s.text.drop s.pos.Offset.toNat).head? ≠ some 13) ∧
  (s.isComplexSinceMark = false →
    13 ∉ substr s.text s.markedPos.Offset s.pos.Offset ∧
    hasEscPair (substr s.text s.markedPos.Offset s.pos.Offset) = false)

/-! ## Basic facts about the UTF-8 decoder -/

-- Exhaustive characterization of the leading-byte table.
theorem utf8Info_eq_some {c0 sz lo hi : Nat} (h : utf8Info c0 = some (sz, lo, hi)) :
    ((0xC2 ≤ c0 ∧ c0 ≤ 0xDF) ∧ sz = 2 ∧ lo = 0x80 ∧ hi = 0xBF) ∨
    (c0 = 0xE0 ∧ sz = 3 ∧ lo = 0xA0 ∧ hi = 0xBF) ∨
    ((0xE1 ≤ c0 ∧ c0 ≤ 0xEC) ∧ sz = 3 ∧ lo = 0x80 ∧ hi = 0xBF) ∨
    (c0 = 0xED ∧ sz = 3 ∧ lo = 0x80 ∧ hi = 0x9F) ∨
    ((0xEE ≤ c0 ∧ c0 ≤ 0xEF) ∧ sz = 3 ∧ lo = 0x80 ∧ hi = 0xBF) ∨
    (c0 = 0xF0 ∧ sz = 4 ∧ lo = 0x90 ∧ hi = 0xBF) ∨
    ((0xF1 ≤ c0 ∧ c0 ≤ 0xF3) ∧ sz = 4 ∧ lo = 0x80 ∧ hi = 0xBF) ∨
    (c0 = 0xF4 ∧ sz = 4 ∧ lo = 0x80 ∧ hi = 0x8F) := by
  unfold utf8Info at h
  repeat' split at h
  all_goals simp_all

theorem decodeRune_width_pos (c0 : Nat) (rest : List Nat) :
    1 ≤ (decodeRune (c0 :: rest)).2 := by
  simp only [decodeRune]
  repeat' split
  all_goals dsimp only
  all_goals omega

theorem decodeRune_width_le (l : List Nat) : (decodeRune l).2 ≤ l.length := by
  match l with
  | [] => simp [decodeRune]
  | c0 :: rest =>
    simp only [decodeRune]
    repeat' split
    all_goals dsimp only
    all_goals simp only [List.length_cons]
    all_goals omega

theorem decodeRune_nonneg (l : List Nat) : 0 ≤ (decodeRune l).1 := by
  match l with
  | [] => simp [decodeRune, runeError]
  | c0 :: rest =>
    simp only [decodeRune]
    repeat' split
    all_goals dsimp only
    all_goals simp [runeError]
    all_goals omega

theorem decodeRune_ascii (c0 : Nat) (rest : List Nat) (h : c0 < 0x80) :
    decodeRune (c0 :: rest) = ((c0 : Int), 1) := by
  simp [decodeRune, h]

-- A multibyte (or invalid) sequence never decodes to a value below 0x80.
theorem decodeRune_val_ge (c0 : Nat) (rest : List Nat) (h : 0x80 ≤ c0) :
    0x80 ≤ (decodeRune (c0 :: rest)).1 := by
  simp only [decodeRune]
  have hlt : ¬ c0 < 0x80 := by omega
  simp only [hlt, if_false]
  rcases h8 : utf8Info c0 with _ | ⟨sz, lo, hi⟩
  · simp [runeError]
  · have hspec := utf8Info_eq_some h8
    simp only
    repeat' split
    all_goals dsimp only
    all_goals (try simp only [runeError])
    all_goals omega

theorem decodeRune_width_pos' (l : List Nat) (h : l ≠ []) : 1 ≤ (decodeRune l).2 := by
  match l with
  | [] => exact absurd rfl h
  | c0 :: rest => exact decodeRune_width_pos c0 rest

/-! ## Basic state invariants of `popFuel` -/

-- The text and the marked position are never touched by a pop.
theorem popFuel_state (f : Nat) : ∀ s : Scanner,
    (popFuel f s).2.text = s.text ∧ (popFuel f s).2.markedPos = s.markedPos := by
  induction f with
  | zero => intro s; exact ⟨rfl, rfl⟩
  | succ f ih =>
    intro s
    simp only [popFuel]
    split
    · exact ⟨rfl, rfl⟩
    · split
      · exact ⟨rfl, rfl⟩
      · split
        · constructor <;> (dsimp only; split) <;> (try split) <;> rfl
        · split
          · split
            · dsimp only
              exact ⟨(ih _).1, (ih _).2⟩
            · refine ⟨((ih _).1).trans (ih _).1, ((ih _).2).trans (ih _).2⟩
          · exact ⟨rfl, rfl⟩

-- Offset accounting for one pop: the offset never decreases; it strictly
-- increases when a non-sentinel rune is produced; and it never moves past
-- the end of the text (or, in the degenerate cases, does not move at all).
theorem popFuel_mono (f : Nat) : ∀ s : Scanner,
    s.pos.Offset ≤ (popFuel f s).2.pos.Offset ∧
    ((popFuel f s).1 ≠ EOF → s.pos.Offset + 1 ≤ (popFuel f s).2.pos.Offset) ∧
    ((popFuel f s).2.pos.Offset ≤ s.pos.Offset ∨
      (popFuel f s).2.pos.Offset ≤ (s.text.length : Int)) := by
  induction f with
  | zero => exact fun s => ⟨le_refl _, fun h => absurd rfl h, Or.inl (le_refl _)⟩
  | succ f ih =>
    intro s
    by_cases he : s.IsEOF
    · simp only [popFuel, he, if_true]
      exact ⟨le_refl _, fun h => absurd rfl h, Or.inl (le_refl _)⟩
    · have hoff : 0 ≤ s.pos.Offset ∧ s.pos.Offset < (s.text.length : Int) := by
        have := he
        simp only [Scanner.IsEOF, decide_eq_true_eq, not_or, not_lt] at this
        omega
      have htl : s.text.drop s.pos.Offset.toNat ≠ [] := by
        simp only [ne_eq, List.drop_eq_nil_iff, not_le]
        omega
      have hw1 : 1 ≤ (decodeRune (s.text.drop s.pos.Offset.toNat)).2 :=
        decodeRune_width_pos' _ htl
      have hw2 : (decodeRune (s.text.drop s.pos.Offset.toNat)).2 ≤
          s.text.length - s.pos.Offset.toNat := by
        have := decodeRune_width_le (s.text.drop s.pos.Offset.toNat)
        simpa using this
      simp only [popFuel, he, if_false, Bool.false_eq_true]
      split
      · -- LF branch
        refine ⟨by dsimp only; omega, fun _ => by dsimp only; omega, Or.inr (by dsimp only; omega)⟩
      · split
        · -- CR branch: the result state is an inner if-expression
          dsimp only
          refine ⟨?_, fun _ => ?_, Or.inr ?_⟩ <;>
          · split
            · dsimp only; omega
            · rename_i hne2
              have hoff2 : 0 ≤ s.pos.Offset + (decodeRune (s.text.drop s.pos.Offset.toNat)).2 ∧
                  s.pos.Offset + (decodeRune (s.text.drop s.pos.Offset.toNat)).2 <
                    (s.text.length : Int) := by
                simp only [Scanner.IsEOF, decide_eq_true_eq, not_or, not_lt] at hne2
                omega
              have hw1' : 1 ≤ (decodeRune (s.text.drop
                  (s.pos.Offset + (decodeRune (s.text.drop s.pos.Offset.toNat)).2).toNat)).2 := by
                apply decodeRune_width_pos'
                simp only [ne_eq, List.drop_eq_nil_iff, not_le]
                omega
              have hw2' : (decodeRune (s.text.drop
                  (s.pos.Offset + (decodeRune (s.text.drop s.pos.Offset.toNat)).2).toNat)).2 ≤
                  s.text.length -
                    (s.pos.Offset + (decodeRune (s.text.drop s.pos.Offset.toNat)).2).toNat := by
                have := decodeRune_width_le (s.text.drop
                  (s.pos.Offset + (decodeRune (s.text.drop s.pos.Offset.toNat)).2).toNat)
                simpa using this
              split
              · dsimp only; omega
              · dsimp only; omega
        · split
          · -- backslash branch
            rcases ih ({ s with pos := { s.pos with
                Offset := s.pos.Offset + (decodeRune (s.text.drop s.pos.Offset.toNat)).2,
                Col := s.pos.Col + 1 } }) with ⟨m1, st1, b1⟩
            dsimp only at m1 st1 b1
            split
            · refine ⟨by dsimp only; omega, fun _ => by dsimp only; omega, Or.inr (by dsimp only; omega)⟩
            · rename_i hq
              have h10 : (popFuel f { s with pos := { s.pos with
                  Offset := s.pos.Offset + (decodeRune (s.text.drop s.pos.Offset.toNat)).2,
                  Col := s.pos.Col + 1 } }).1 = 10 := not_not.mp hq
              have hst : s.pos.Offset + (decodeRune (s.text.drop s.pos.Offset.toNat)).2 + 1 ≤
                  (popFuel f { s with pos := { s.pos with
                    Offset := s.pos.Offset + (decodeRune (s.text.drop s.pos.Offset.toNat)).2,
                    Col := s.pos.Col + 1 } }).2.pos.Offset := by
                apply st1
                rw [h10]; decide
              rcases ih ({ (popFuel f { s with pos := { s.pos with
                  Offset := s.pos.Offset + (decodeRune (s.text.drop s.pos.Offset.toNat)).2,
                  Col := s.pos.Col + 1 } }).2 with isComplexSinceMark := true }) with ⟨m2, st2, b2⟩
              dsimp only at m2 st2 b2
              have htx : ((popFuel f { s with pos := { s.pos with
                  Offset := s.pos.Offset + (decodeRune (s.text.drop s.pos.Offset.toNat)).2,
                  Col := s.pos.Col + 1 } }).2.text).length = s.text.length := by
                rw [(popFuel_state f _).1]
              rw [htx] at b2
              exact ⟨by omega, fun _ => by omega, Or.inr (by omega)⟩
          · -- plain rune branch
            refine ⟨by dsimp only; omega, fun _ => by dsimp only; omega, Or.inr (by dsimp only; omega)⟩

-- The dirty flag is never cleared by a pop.
theorem popFuel_flag_mono (f : Nat) : ∀ s : Scanner,
    s.isComplexSinceMark = true → (popFuel f s).2.isComplexSinceMark = true := by
  induction f with
  | zero => exact fun s h => h
  | succ f ih =>
    intro s h
    simp only [popFuel]
    split
    · exact h
    · split
      · exact h
      · split
        · dsimp only; split
          · rfl
          · split <;> rfl
        · split
          · split
            · exact ih _ h
            · exact ih _ rfl
          · exact h

-- A pop from an at-end state is a no-op producing the sentinel.
theorem popFuel_of_isEOF (f : Nat) (s : Scanner) (h : s.IsEOF = true) :
    popFuel f s = (EOF, s) := by
  cases f with
  | zero => rfl
  | succ f => simp [popFuel, h]

-- Whenever a (sufficiently fuelled) pop produces the sentinel, the resulting
-- state is at end of input.
theorem popFuel_eof_isEOF (f : Nat) : ∀ s : Scanner,
    s.text.length - s.pos.Offset.toNat < f → (popFuel f s).1 = EOF →
    (popFuel f s).2.IsEOF = true := by
  induction f with
  | zero => intro s h; omega
  | succ f ih =>
    intro s hf
    by_cases he : s.IsEOF
    · intro _; simp only [popFuel, he, if_true]
    · have hoff : 0 ≤ s.pos.Offset ∧ s.pos.Offset < (s.text.length : Int) := by
        have := he
        simp only [Scanner.IsEOF, decide_eq_true_eq, not_or, not_lt] at this
        omega
      have htl : s.text.drop s.pos.Offset.toNat ≠ [] := by
        simp only [ne_eq, List.drop_eq_nil_iff, not_le]
        omega
      have hw1 : 1 ≤ (decodeRune (s.text.drop s.pos.Offset.toNat)).2 :=
        decodeRune_width_pos' _ htl
      simp only [popFuel, he, if_false, Bool.false_eq_true]
      split
      · intro hres; dsimp only at hres; exact absurd hres (by decide)
      · split
        · intro hres; dsimp only at hres; exact absurd hres (by decide)
        · split
          · split
            · intro hres; dsimp only at hres; exact absurd hres (by decide)
            · rename_i hq
              have h10 : (popFuel f { s with pos := { s.pos with
                  Offset := s.pos.Offset + (decodeRune (s.text.drop s.pos.Offset.toNat)).2,
                  Col := s.pos.Col + 1 } }).1 = 10 := not_not.mp hq
              rcases popFuel_mono f ({ s with pos := { s.pos with
                  Offset := s.pos.Offset + (decodeRune (s.text.drop s.pos.Offset.toNat)).2,
                  Col := s.pos.Col + 1 } }) with ⟨_, st1, _⟩
              have hst := st1 (by rw [h10]; decide)
              dsimp only at hst
              have htx : ((popFuel f { s with pos := { s.pos with
                  Offset := s.pos.Offset + (decodeRune (s.text.drop s.pos.Offset.toNat)).2,
                  Col := s.pos.Col + 1 } }).2.text).length = s.text.length := by
                rw [(popFuel_state f _).1]
              apply ih
              dsimp only
              rw [htx]
              omega
          · intro hres
            dsimp only at hres
            have := decodeRune_nonneg (s.text.drop s.pos.Offset.toNat)
            rw [hres] at this
            exact absurd this (by decide)

-- Any two sufficient fuel values produce the same pop result.
theorem popFuel_irrel (f₁ : Nat) : ∀ (s : Scanner) (f₂ : Nat),
    s.text.length - s.pos.Offset.toNat < f₁ →
    s.text.length - s.pos.Offset.toNat < f₂ →
    popFuel f₁ s = popFuel f₂ s := by
  induction f₁ with
  | zero => intro s f₂ h; omega
  | succ f₁ ih =>
    intro s f₂ h1 h2
    obtain ⟨g, rfl⟩ : ∃ g, f₂ = g + 1 := ⟨f₂ - 1, by omega⟩
    by_cases he : s.IsEOF
    · rw [popFuel_of_isEOF _ _ he, popFuel_of_isEOF _ _ he]
    · have hoff : 0 ≤ s.pos.Offset ∧ s.pos.Offset < (s.text.length : Int) := by
        have := he
        simp only [Scanner.IsEOF, decide_eq_true_eq, not_or, not_lt] at this
        omega
      have htl : s.text.drop s.pos.Offset.toNat ≠ [] := by
        simp only [ne_eq, List.drop_eq_nil_iff, not_le]
        omega
      have hw1 : 1 ≤ (decodeRune (s.text.drop s.pos.Offset.toNat)).2 :=
        decodeRune_width_pos' _ htl
      simp only [popFuel, he, if_false, Bool.false_eq_true]
      by_cases c1 : (decodeRune (s.text.drop s.pos.Offset.toNat)).1 = 10
      · rw [if_pos c1, if_pos c1]
      · rw [if_neg c1, if_neg c1]
        by_cases c2 : (decodeRune (s.text.drop s.pos.Offset.toNat)).1 = 13
        · rw [if_pos c2, if_pos c2]
        · rw [if_neg c2, if_neg c2]
          by_cases c3 : (decodeRune (s.text.drop s.pos.Offset.toNat)).1 = 92
          · rw [if_pos c3, if_pos c3]
            have hrec1 : popFuel f₁ ({ s with pos := { s.pos with
                Offset := s.pos.Offset + (decodeRune (s.text.drop s.pos.Offset.toNat)).2,
                Col := s.pos.Col + 1 } }) = popFuel g ({ s with pos := { s.pos with
                Offset := s.pos.Offset + (decodeRune (s.text.drop s.pos.Offset.toNat)).2,
                Col := s.pos.Col + 1 } }) := by
              apply ih
              · dsimp only; omega
              · dsimp only; omega
            rw [hrec1]
            by_cases c4 : (popFuel g ({ s with pos := { s.pos with
                Offset := s.pos.Offset + (decodeRune (s.text.drop s.pos.Offset.toNat)).2,
                Col := s.pos.Col + 1 } })).1 ≠ 10
            · rw [if_pos c4, if_pos c4]
            · rw [if_neg c4, if_neg c4]
              have h10 := not_not.mp c4
              rcases popFuel_mono g ({ s with pos := { s.pos with
                  Offset := s.pos.Offset + (decodeRune (s.text.drop s.pos.Offset.toNat)).2,
                  Col := s.pos.Col + 1 } }) with ⟨_, st1, _⟩
              have hst := st1 (by rw [h10]; decide)
              dsimp only at hst
              have htx : ((popFuel g { s with pos := { s.pos with
                  Offset := s.pos.Offset + (decodeRune (s.text.drop s.pos.Offset.toNat)).2,
                  Col := s.pos.Col + 1 } }).2.text).length = s.text.length := by
                rw [(popFuel_state g _).1]
              apply ih
              · dsimp only; rw [htx]; omega
              · dsimp only; rw [htx]; omega
          · rw [if_neg c3, if_neg c3]

-- `Pop` equals `popFuel` at any sufficient fuel: the recursion terminates and
-- its depth is bounded by the remaining byte count.
theorem Pop_eq_popFuel (s : Scanner) (f : Nat)
    (h : s.text.length - s.pos.Offset.toNat < f) : s.Pop = popFuel f s :=
  popFuel_irrel (s.text.length + 1) s f (by omega) h

-- A decoded rune equals a given ASCII value exactly when the head byte is
-- that value.
theorem decodeRune_eq_small (b : Nat) (rest : List Nat) (v : Nat) (hv : v < 0x80) :
    (decodeRune (b :: rest)).1 = (v : Int) ↔ b = v := by
  by_cases hb : b < 0x80
  · rw [decodeRune_ascii b rest hb]
    dsimp only
    exact ⟨fun h => by exact_mod_cast h, fun h => by exact_mod_cast h⟩
  · have hge := decodeRune_val_ge b rest (by omega)
    constructor
    · intro h; omega
    · intro h; omega

/-! ## Step characterization of `Pop`

The following lemmas give the value of one `Pop` as a function of the bytes at
the current offset, and are the interface all higher-level proofs go through.
In each, `s.pos.Offset` is nonnegative and the text from the current offset
onwards is given explicitly. -/

theorem drop_len_pos {s : Scanner} {x : Nat} {xs : List Nat}
    (hdrop : s.text.drop s.pos.Offset.toNat = x :: xs) (h0 : 0 ≤ s.pos.Offset) :
    s.pos.Offset.toNat < s.text.length ∧ s.text.length = s.pos.Offset.toNat + xs.length + 1 := by
  have := congrArg List.length hdrop
  simp only [List.length_drop, List.length_cons] at this
  omega

theorem scanner_not_eof {s : Scanner} {x : Nat} {xs : List Nat}
    (hdrop : s.text.drop s.pos.Offset.toNat = x :: xs) (h0 : 0 ≤ s.pos.Offset) :
    s.IsEOF = false := by
  rcases drop_len_pos hdrop h0 with ⟨h1, _⟩
  simp only [Scanner.IsEOF, decide_eq_false_iff_not, not_or, not_lt, not_le]
  omega

-- Rule A: a plain ASCII byte (not LF, CR or backslash) pops as itself,
-- advancing offset and column by one.
theorem pop_plain {s : Scanner} {c : Nat} {rest : List Nat}
    (h0 : 0 ≤ s.pos.Offset)
    (hdrop : s.text.drop s.pos.Offset.toNat = c :: rest)
    (hc : c < 0x80) (hc10 : c ≠ 10) (hc13 : c ≠ 13) (hc92 : c ≠ 92) :
    s.Pop = ((c : Int),
      { s with pos := { s.pos with Offset := s.pos.Offset + 1, Col := s.pos.Col + 1 } }) := by
  have hne := scanner_not_eof hdrop h0
  rw [Scanner.Pop]
  simp only [popFuel, hne, if_false, Bool.false_eq_true, hdrop, decodeRune_ascii c rest hc]
  have e10 : ¬ ((c : Int) = 10) := fun h => hc10 (by exact_mod_cast h)
  have e13 : ¬ ((c : Int) = 13) := fun h => hc13 (by exact_mod_cast h)
  have e92 : ¬ ((c : Int) = 92) := fun h => hc92 (by exact_mod_cast h)
  rw [if_neg e10, if_neg e13, if_neg e92]
  norm_num

-- Rule B: an LF byte pops as LF, advancing to the next line.
theorem pop_lf {s : Scanner} {rest : List Nat}
    (h0 : 0 ≤ s.pos.Offset)
    (hdrop : s.text.drop s.pos.Offset.toNat = 10 :: rest) :
    s.Pop = (10,
      { s with pos := { s.pos with Offset := s.pos.Offset + 1, Line := s.pos.Line + 1, Col := 1 } }) := by
  have hne := scanner_not_eof hdrop h0
  rw [Scanner.Pop]
  simp only [popFuel, hne, if_false, Bool.false_eq_true, hdrop,
    decodeRune_ascii 10 rest (by omega)]
  norm_num

theorem Pop_state (s : Scanner) :
    (s.Pop).2.text = s.text ∧ (s.Pop).2.markedPos = s.markedPos :=
  popFuel_state _ _

theorem Pop_mono (s : Scanner) :
    s.pos.Offset ≤ (s.Pop).2.pos.Offset ∧
    ((s.Pop).1 ≠ EOF → s.pos.Offset + 1 ≤ (s.Pop).2.pos.Offset) ∧
    ((s.Pop).2.pos.Offset ≤ s.pos.Offset ∨ (s.Pop).2.pos.Offset ≤ (s.text.length : Int)) :=
  popFuel_mono _ _

theorem Pop_flag_mono (s : Scanner) (h : s.isComplexSinceMark = true) :
    (s.Pop).2.isComplexSinceMark = true :=
  popFuel_flag_mono _ _ h

theorem Pop_of_isEOF (s : Scanner) (h : s.IsEOF = true) : s.Pop = (EOF, s) :=
  popFuel_of_isEOF _ _ h

theorem Pop_eof_isEOF (s : Scanner) (h : (s.Pop).1 = EOF) : ((s.Pop).2).IsEOF = true :=
  popFuel_eof_isEOF (s.text.length + 1) s (by omega) h

-- Rule C: a CR not followed by LF pops as LF, consuming one byte and setting
-- the dirty flag.
theorem pop_cr_solo {s : Scanner} {rest : List Nat}
    (h0 : 0 ≤ s.pos.Offset)
    (hdrop : s.text.drop s.pos.Offset.toNat = 13 :: rest)
    (hnext : rest.head? ≠ some 10) :
    s.Pop = (10,
      { s with pos := { s.pos with Offset := s.pos.Offset + 1, Line := s.pos.Line + 1, Col := 1 }, isComplexSinceMark := true }) := by
  have hne := scanner_not_eof hdrop h0
  have hdrop1 : s.text.drop (s.pos.Offset.toNat + 1) = rest := by
    have h' : s.text.drop (s.pos.Offset.toNat + 1) =
        List.drop 1 (List.drop s.pos.Offset.toNat s.text) := by
      rw [List.drop_drop, Nat.add_comm]
    rw [h', hdrop]
    rfl
  rw [Scanner.Pop]
  simp only [popFuel, hne, if_false, Bool.false_eq_true, hdrop,
    decodeRune_ascii 13 rest (by omega), Nat.cast_one]
  rw [if_neg (by decide), if_pos (by norm_num)]
  have hto : (s.pos.Offset + (1 : Int)).toNat = s.pos.Offset.toNat + 1 := by omega
  rcases rest with _ | ⟨r0, rs⟩
  · have heof : (s.pos.Offset + 1 < 0 ∨ (s.text.length : Int) ≤ s.pos.Offset + 1) := by
      rcases drop_len_pos hdrop h0 with ⟨_, hlen⟩
      simp only [List.length_nil] at hlen
      omega
    simp only [Scanner.IsEOF]
    rw [if_pos (by exact decide_eq_true heof)]
  · have hnf : ¬ (s.pos.Offset + 1 < 0 ∨ (s.text.length : Int) ≤ s.pos.Offset + 1) := by
      rcases drop_len_pos hdrop h0 with ⟨_, hlen⟩
      simp only [List.length_cons] at hlen
      omega
    simp only [Scanner.IsEOF]
    rw [if_neg (by simpa using hnf)]
    rw [hto, hdrop1]
    have hr0 : r0 ≠ 10 := by
      intro h; exact hnext (by rw [h]; rfl)
    have hnot := (not_iff_not.mpr (decodeRune_eq_small r0 rs 10 (by omega))).mpr hr0
    rw [if_neg (by exact_mod_cast hnot)]

-- Rule D: CRLF pops as a single LF, consuming two bytes and setting the
-- dirty flag.
theorem pop_crlf {s : Scanner} {rest : List Nat}
    (h0 : 0 ≤ s.pos.Offset)
    (hdrop : s.text.drop s.pos.Offset.toNat = 13 :: 10 :: rest) :
    s.Pop = (10,
      { s with pos := { s.pos with Offset := s.pos.Offset + 2, Line := s.pos.Line + 1, Col := 1 }, isComplexSinceMark := true }) := by
  have hne := scanner_not_eof hdrop h0
  have hdrop1 : s.text.drop (s.pos.Offset.toNat + 1) = 10 :: rest := by
    have h' : s.text.drop (s.pos.Offset.toNat + 1) =
        List.drop 1 (List.drop s.pos.Offset.toNat s.text) := by
      rw [List.drop_drop, Nat.add_comm]
    rw [h', hdrop]
    rfl
  rw [Scanner.Pop]
  simp only [popFuel, hne, if_false, Bool.false_eq_true, hdrop,
    decodeRune_ascii 13 _ (by omega), Nat.cast_one]
  rw [if_neg (by decide), if_pos (by norm_num)]
  have hnf : ¬ (s.pos.Offset + 1 < 0 ∨ (s.text.length : Int) ≤ s.pos.Offset + 1) := by
    rcases drop_len_pos hdrop h0 with ⟨_, hlen⟩
    simp only [List.length_cons] at hlen
    omega
  have hto : (s.pos.Offset + (1 : Int)).toNat = s.pos.Offset.toNat + 1 := by omega
  simp only [Scanner.IsEOF]
  rw [if_neg (by simpa using hnf)]
  rw [hto, hdrop1, decodeRune_ascii 10 rest (by omega)]
  rw [if_pos (by norm_num)]
  have : s.pos.Offset + 1 + ((1 : Nat) : Int) = s.pos.Offset + 2 := by omega
  rw [this]

-- Rule E: a backslash whose lookahead pop does not produce LF pops as a
-- literal backslash; the position is restored to just past the backslash but
-- any flag change made by the lookahead persists.
theorem pop_backslash_lit {s : Scanner} {rest : List Nat}
    (h0 : 0 ≤ s.pos.Offset)
    (hdrop : s.text.drop s.pos.Offset.toNat = 92 :: rest)
    (hlit : (Scanner.Pop { s with pos := { s.pos with Offset := s.pos.Offset + 1, Col := s.pos.Col + 1 } }).1 ≠ 10) :
    s.Pop = (92,
      { (Scanner.Pop { s with pos := { s.pos with Offset := s.pos.Offset + 1, Col := s.pos.Col + 1 } }).2 with pos := { s.pos with Offset := s.pos.Offset + 1, Col := s.pos.Col + 1 } }) := by
  have hne := scanner_not_eof hdrop h0
  have hlen : 1 ≤ s.text.length := by
    rcases drop_len_pos hdrop h0 with ⟨_, hl⟩; omega
  rw [Scanner.Pop]
  simp only [popFuel, hne, if_false, Bool.false_eq_true, hdrop,
    decodeRune_ascii 92 rest (by omega), Nat.cast_one]
  rw [if_neg (by decide), if_neg (by decide), if_pos (by norm_num)]
  have hfuel : Scanner.Pop { s with pos := { s.pos with Offset := s.pos.Offset + 1, Col := s.pos.Col + 1 } } =
      popFuel s.text.length { s with pos := { s.pos with Offset := s.pos.Offset + 1, Col := s.pos.Col + 1 } } := by
    apply Pop_eq_popFuel
    dsimp only
    omega
  rw [← hfuel]
  rw [if_pos hlit]

-- Rule F: a backslash whose lookahead pop produces LF elides both, sets the
-- dirty flag, and yields the result of popping once more.
theorem pop_backslash_esc {s : Scanner} {rest : List Nat}
    (h0 : 0 ≤ s.pos.Offset)
    (hdrop : s.text.drop s.pos.Offset.toNat = 92 :: rest)
    (hesc : (Scanner.Pop { s with pos := { s.pos with Offset := s.pos.Offset + 1, Col := s.pos.Col + 1 } }).1 = 10) :
    s.Pop = Scanner.Pop { (Scanner.Pop { s with pos := { s.pos with Offset := s.pos.Offset + 1, Col := s.pos.Col + 1 } }).2 with isComplexSinceMark := true } := by
  have hne := scanner_not_eof hdrop h0
  have hlen : 1 ≤ s.text.length := by
    rcases drop_len_pos hdrop h0 with ⟨_, hl⟩; omega
  rw [Scanner.Pop]
  simp only [popFuel, hne, if_false, Bool.false_eq_true, hdrop,
    decodeRune_ascii 92 rest (by omega), Nat.cast_one]
  rw [if_neg (by decide), if_neg (by decide), if_pos (by norm_num)]
  have hfuel : Scanner.Pop { s with pos := { s.pos with Offset := s.pos.Offset + 1, Col := s.pos.Col + 1 } } =
      popFuel s.text.length { s with pos := { s.pos with Offset := s.pos.Offset + 1, Col := s.pos.Col + 1 } } := by
    apply Pop_eq_popFuel
    dsimp only
    omega
  rw [← hfuel]
  rw [if_neg (by simpa using hesc)]
  have hst : s.pos.Offset + 1 + 1 ≤ (Scanner.Pop { s with pos := { s.pos with Offset := s.pos.Offset + 1, Col := s.pos.Col + 1 } }).2.pos.Offset := by
    have := (Pop_mono ({ s with pos := { s.pos with Offset := s.pos.Offset + 1, Col := s.pos.Col + 1 } })).2.1
    dsimp only at this
    exact this (by rw [hesc]; decide)
  have htx : ((Scanner.Pop { s with pos := { s.pos with Offset := s.pos.Offset + 1, Col := s.pos.Col + 1 } }).2.text).length = s.text.length := by
    rw [(Pop_state _).1]
  apply (Pop_eq_popFuel _ _ _).symm
  dsimp only at hst htx ⊢
  rw [htx]
  omega

/-! ## Iterated popping -/

-- A run of pops produces at most `remaining bytes` non-sentinel runes.
theorem popAllFuel_len (f : Nat) : ∀ s : Scanner,
    (popAllFuel f s).1.length ≤ s.text.length - s.pos.Offset.toNat := by
  induction f with
  | zero => intro s; simp [popAllFuel]
  | succ f ih =>
    intro s
    simp only [popAllFuel]
    split
    · simp
    · rename_i hne
      by_cases he : s.IsEOF
      · rw [Pop_of_isEOF s he] at hne; exact absurd rfl hne
      · have hoff : 0 ≤ s.pos.Offset ∧ s.pos.Offset < (s.text.length : Int) := by
          have := he
          simp only [Scanner.IsEOF, decide_eq_true_eq, not_or, not_lt] at this
          omega
        rcases Pop_mono s with ⟨_, hst, hub⟩
        have h1 := hst hne
        have htx : ((s.Pop).2.text).length = s.text.length := by rw [(Pop_state s).1]
        have := ih (s.Pop).2
        rw [htx] at this
        simp only [List.length_cons]
        omega

-- After a full run of pops the scanner is at end of input.
theorem popAllFuel_end (f : Nat) : ∀ s : Scanner,
    s.text.length - s.pos.Offset.toNat < f → (((popAllFuel f s).2).IsEOF) = true := by
  induction f with
  | zero => intro s h; omega
  | succ f ih =>
    intro s hf
    simp only [popAllFuel]
    split
    · rename_i heq
      exact Pop_eof_isEOF s heq
    · rename_i hne
      by_cases he : s.IsEOF
      · rw [Pop_of_isEOF s he] at hne; exact absurd rfl hne
      · have hoff : 0 ≤ s.pos.Offset ∧ s.pos.Offset < (s.text.length : Int) := by
          have := he
          simp only [Scanner.IsEOF, decide_eq_true_eq, not_or, not_lt] at this
          omega
        rcases Pop_mono s with ⟨_, hst, hub⟩
        have h1 := hst hne
        have htx : ((s.Pop).2.text).length = s.text.length := by rw [(Pop_state s).1]
        apply ih
        rw [htx]
        omega

theorem popAll_len (s : Scanner) : (popAll s).1.length ≤ s.text.length := by
  rw [popAll]
  have := popAllFuel_len (s.text.length + 1) s
  omega

theorem popAll_end (s : Scanner) : (((popAll s).2).IsEOF) = true := by
  rw [popAll]
  exact popAllFuel_end (s.text.length + 1) s (by omega)

/-! ## Chained escaped line breaks -/

theorem drop_shift {text l : List Nat} {n : Nat} (h : text.drop n = l) (k : Nat) :
    text.drop (n + k) = l.drop k := by
  subst h
  rw [List.drop_drop]

-- A run of backslash-break pairs collapses inside a single `Pop`: the value
-- produced is the first rune after the run (or the sentinel when the run
-- reaches the end of the text).
theorem pop_escChain (brks : List (List Nat)) : ∀ (s : Scanner) (tail : List Nat),
    (∀ b ∈ brks, b = [10] ∨ b = [13] ∨ b = [13, 10]) → 0 ≤ s.pos.Offset →
    s.text.drop s.pos.Offset.toNat = escBreaks brks ++ tail →
    (tail = [] → (s.Pop).1 = EOF) ∧
    (∀ c rest, tail = c :: rest → c < 0x80 → c ≠ 10 → c ≠ 13 → c ≠ 92 →
      (s.Pop).1 = (c : Int)) := by
  induction brks with
  | nil =>
    intro s tail _ h0 hdrop
    simp only [escBreaks, List.map_nil, List.flatten_nil, List.nil_append] at hdrop
    constructor
    · intro ht
      subst ht
      have heof : s.IsEOF = true := by
        have := congrArg List.length hdrop
        simp only [List.length_drop, List.length_nil] at this
        simp only [Scanner.IsEOF, decide_eq_true_eq]
        omega
      rw [Pop_of_isEOF s heof]
    · intro c rest ht hc h10 h13 h92
      subst ht
      rw [pop_plain h0 hdrop hc h10 h13 h92]
  | cons b brks' ih =>
    intro s tail hb h0 hdrop
    have hbhead := hb b (List.mem_cons_self b brks')
    have hb' : ∀ x ∈ brks', x = [10] ∨ x = [13] ∨ x = [13, 10] :=
      fun x hx => hb x (List.mem_cons_of_mem b hx)
    have hdrop92 : s.text.drop s.pos.Offset.toNat = 92 :: (b ++ (escBreaks brks' ++ tail)) := by
      rw [hdrop]
      simp [escBreaks]
    -- the state just past the backslash
    have h01 : (0 : Int) ≤ s.pos.Offset + 1 := by omega
    have hto1 : (s.pos.Offset + (1 : Int)).toNat = s.pos.Offset.toNat + 1 := by omega
    have hdropInner : s.text.drop (s.pos.Offset.toNat + 1) = b ++ (escBreaks brks' ++ tail) := by
      have := drop_shift hdrop92 1
      simpa using this
    rcases hbhead with rfl | rfl | rfl
    · -- b = [10] : backslash LF
      have hlf := @pop_lf { s with pos := { s.pos with Offset := s.pos.Offset + 1, Col := s.pos.Col + 1 } }
        (escBreaks brks' ++ tail) (by dsimp only; omega)
        (by dsimp only; rw [hto1]; simpa using hdropInner)
      have hesc : (Scanner.Pop { s with pos := { s.pos with Offset := s.pos.Offset + 1, Col := s.pos.Col + 1 } }).1 = 10 := by
        rw [hlf]
      rw [pop_backslash_esc h0 hdrop92 hesc, hlf]
      have hdrop2 : s.text.drop (s.pos.Offset.toNat + 2) = escBreaks brks' ++ tail := by
        have := drop_shift hdrop92 2
        simpa using this
      have := ih ({ { s with pos := { s.pos with Offset := s.pos.Offset + 1, Col := s.pos.Col + 1 } } with pos := { { s.pos with Offset := s.pos.Offset + 1, Col := s.pos.Col + 1 } with Offset := s.pos.Offset + 1 + 1, Line := s.pos.Line + 1, Col := 1 }, isComplexSinceMark := true }) tail hb'
        (by dsimp only; omega)
        (by dsimp only
            have hto2 : (s.pos.Offset + 1 + (1 : Int)).toNat = s.pos.Offset.toNat + 2 := by omega
            rw [hto2]; exact hdrop2)
      exact this
    · -- b = [13] : backslash CR; the byte after the CR is never LF here
      -- (it is a backslash when the run continues, the end of text, or the
      -- plain trailing character of the second conjunct)
      have hdrop2 : s.text.drop (s.pos.Offset.toNat + 2) = escBreaks brks' ++ tail := by
        have := drop_shift hdrop92 2
        simpa using this
      constructor
      · intro ht
        subst ht
        have hnext : (escBreaks brks' ++ ([] : List Nat)).head? ≠ some 10 := by
          rcases brks' with _ | ⟨b2, brks''⟩
          · simp [escBreaks]
          · simp [escBreaks]
        have hcr := @pop_cr_solo { s with pos := { s.pos with Offset := s.pos.Offset + 1, Col := s.pos.Col + 1 } }
          (escBreaks brks' ++ []) (by dsimp only; omega)
          (by dsimp only; rw [hto1]; simpa using hdropInner) hnext
        rw [pop_backslash_esc h0 hdrop92 (by rw [hcr]), hcr]
        refine (ih _ [] hb' (by dsimp only; omega) ?_).1 rfl
        dsimp only
        have hto2 : (s.pos.Offset + 1 + (1 : Int)).toNat = s.pos.Offset.toNat + 2 := by omega
        rw [hto2]
        simpa using hdrop2
      · intro c rest ht hc h10 h13 h92
        subst ht
        have hnext : (escBreaks brks' ++ (c :: rest)).head? ≠ some 10 := by
          rcases brks' with _ | ⟨b2, brks''⟩
          · simp only [escBreaks, List.map_nil, List.flatten_nil, List.nil_append,
              List.head?_cons, ne_eq, Option.some.injEq]
            exact fun h => h10 (by exact_mod_cast h)
          · simp [escBreaks]
        have hcr := @pop_cr_solo { s with pos := { s.pos with Offset := s.pos.Offset + 1, Col := s.pos.Col + 1 } }
          (escBreaks brks' ++ (c :: rest)) (by dsimp only; omega)
          (by dsimp only; rw [hto1]; simpa using hdropInner) hnext
        rw [pop_backslash_esc h0 hdrop92 (by rw [hcr]), hcr]
        refine (ih _ (c :: rest) hb' (by dsimp only; omega) ?_).2 c rest rfl hc h10 h13 h92
        dsimp only
        have hto2 : (s.pos.Offset + 1 + (1 : Int)).toNat = s.pos.Offset.toNat + 2 := by omega
        rw [hto2]
        simpa using hdrop2
    · -- b = [13, 10] : backslash CRLF
      have hdrop3 : s.text.drop (s.pos.Offset.toNat + 3) = escBreaks brks' ++ tail := by
        have := drop_shift hdrop92 3
        simpa using this
      have hcrlf := @pop_crlf { s with pos := { s.pos with Offset := s.pos.Offset + 1, Col := s.pos.Col + 1 } }
        (escBreaks brks' ++ tail) (by dsimp only; omega)
        (by dsimp only; rw [hto1]; simpa using hdropInner)
      rw [pop_backslash_esc h0 hdrop92 (by rw [hcrlf]), hcrlf]
      refine ih _ tail hb' (by dsimp only; omega) ?_
      dsimp only
      have hto3 : ({ s with pos := { s.pos with Offset := s.pos.Offset + 1, Col := s.pos.Col + 1 } }.pos.Offset + (2 : Int)).toNat = s.pos.Offset.toNat + 3 := by
        dsimp only; omega
      rw [hto3]
      exact hdrop3

/-! ## Claim theorems -/

/-- C1: the claim says `Peek`/`PeekSpan` leave the entire scanner state
unchanged, including the dirty-since-mark flag, even when the internal pop
consumes a CR or a backslash-line-break.  The code violates this: `Peek`
restores only the `TextPosition`, so peeking a CR (text `"\r"`) or a
backslash-break (text `"\\\n"`, via `PeekSpan`) flips `isComplexSinceMark`
from `false` to `true` — while the position itself is indeed restored. -/
theorem C1_peek_mutates_dirty_flag :
    (NewScanner [13]).isComplexSinceMark = false ∧
    ((NewScanner [13]).Peek).2.isComplexSinceMark = true ∧
    ((NewScanner [13]).Peek).2.pos = (NewScanner [13]).pos ∧
    ((NewScanner [13]).Peek).1 = 10 ∧
    (NewScanner [92, 10]).isComplexSinceMark = false ∧
    ((NewScanner [92, 10]).PeekSpan).2.isComplexSinceMark = true ∧
    ((NewScanner [92, 10]).PeekSpan).2.pos = (NewScanner [92, 10]).pos := by decide

/-- C2 (counterexample): for the text `"\\\\\n\n"` (backslash, backslash, LF,
LF), popping from a fresh scanner returns the sentinel immediately (the first
backslash sees the chained elision of the second backslash-LF produce an LF,
so everything is consumed), hence the concatenation of popped characters is
empty; but `Slice()` then returns `"\\\n"`, because the flat replacement only
deletes the inner backslash-LF pair.  So pop-concatenation and `Slice` differ. -/
theorem C2_counterexample :
    ((popAll (NewScanner [92, 92, 10, 10])).1.map encodeRune).flatten = [] ∧
    (popAll (NewScanner [92, 92, 10, 10])).2.Slice = some [92, 10] ∧
    some (((popAll (NewScanner [92, 92, 10, 10])).1.map encodeRune).flatten) ≠
      (popAll (NewScanner [92, 92, 10, 10])).2.Slice := by decide

/-- C3: escaped-break elision.  `"a\\\nb"` pops to `['a','b',EOF]`; `"a\\"`
pops to `['a','\\',EOF]`; `"a\\b"` pops to `['a','\\','b',EOF]`; and a run of
backslash-break pairs (each break LF, CR or CRLF) collapses inside a single
`Pop`, producing the first plain character after the run, or the sentinel
when the run reaches the end of the text. -/
theorem C3_escaped_break_elision :
    (popAll (NewScanner [97, 92, 10, 98])).1 = [97, 98] ∧
    (popAll (NewScanner [97, 92])).1 = [97, 92] ∧
    (popAll (NewScanner [97, 92, 98])).1 = [97, 92, 98] ∧
    (∀ (brks : List (List Nat)) (c : Nat) (rest : List Nat),
      (∀ b ∈ brks, b = [10] ∨ b = [13] ∨ b = [13, 10]) →
      c < 0x80 → c ≠ 10 → c ≠ 13 → c ≠ 92 →
      ((NewScanner (escBreaks brks ++ (c :: rest))).Pop).1 = (c : Int) ∧
      ((NewScanner (escBreaks brks)).Pop).1 = EOF) := by
  refine ⟨by decide, by decide, by decide, ?_⟩
  intro brks c rest hb hc h10 h13 h92
  constructor
  · exact (pop_escChain brks (NewScanner _) (c :: rest) hb
      (by simp [NewScanner, NewScannerAt]) (by simp [NewScanner, NewScannerAt])).2
      c rest rfl hc h10 h13 h92
  · exact (pop_escChain brks (NewScanner _) [] hb
      (by simp [NewScanner, NewScannerAt]) (by simp [NewScanner, NewScannerAt])).1 rfl

/-- C3 witness: the chain statement applied to the concrete run
backslash-LF, backslash-CR, backslash-CRLF followed by `'b'`, and to the
run backslash-CRLF, backslash-LF with nothing after it. -/
theorem C3_escaped_break_elision_witness :
    ((NewScanner (escBreaks [[10], [13], [13, 10]] ++ (98 :: [99]))).Pop).1 = 98 ∧
    ((NewScanner (escBreaks [[13, 10], [10]])).Pop).1 = EOF :=
  ⟨(C3_escaped_break_elision.2.2.2 [[10], [13], [13, 10]] 98 [99]
      (by decide) (by decide) (by decide) (by decide) (by decide)).1,
   (C3_escaped_break_elision.2.2.2 [[13, 10], [10]] 98 []
      (by decide) (by decide) (by decide) (by decide) (by decide)).2⟩

/-- C4: line-break normalization.  `"a\rb"`, `"a\nb"`, `"a\r\nb"` each pop to
`['a', LF, 'b', EOF]`; after consuming the break, line is 2 and column 1 in
all three variants; and for `"a\r\nb"` the span sequence is exactly
`{'a',(0,1,1)→(1,1,2)}, {LF,(1,1,2)→(3,2,1)}, {'b',(3,2,1)→(4,2,2)},
{EOF,(4,2,2)→(4,2,2)}` (byte offsets 0,1,3,4). -/
theorem C4_line_break_normalization :
    (popAll (NewScanner [97, 13, 98])).1 = [97, 10, 98] ∧
    (popAll (NewScanner [97, 10, 98])).1 = [97, 10, 98] ∧
    (popAll (NewScanner [97, 13, 10, 98])).1 = [97, 10, 98] ∧
    (popNState 2 (NewScanner [97, 13, 98])).pos.Line = 2 ∧
    (popNState 2 (NewScanner [97, 13, 98])).pos.Col = 1 ∧
    (popNState 2 (NewScanner [97, 10, 98])).pos.Line = 2 ∧
    (popNState 2 (NewScanner [97, 10, 98])).pos.Col = 1 ∧
    (popNState 2 (NewScanner [97, 13, 10, 98])).pos.Line = 2 ∧
    (popNState 2 (NewScanner [97, 13, 10, 98])).pos.Col = 1 ∧
    (let s0 := NewScanner [97, 13, 10, 98]
     let p1 := s0.PopSpan
     let p2 := p1.2.PopSpan
     let p3 := p2.2.PopSpan
     let p4 := p3.2.PopSpan
     [p1.1, p2.1, p3.1, p4.1] =
       [{ Rune := 97, Pos := { Offset := 0, Line := 1, Col := 1 },
          End := { Offset := 1, Line := 1, Col := 2 } },
        { Rune := 10, Pos := { Offset := 1, Line := 1, Col := 2 },
          End := { Offset := 3, Line := 2, Col := 1 } },
        { Rune := 98, Pos := { Offset := 3, Line := 2, Col := 1 },
          End := { Offset := 4, Line := 2, Col := 2 } },
        { Rune := EOF, Pos := { Offset := 4, Line := 2, Col := 2 },
          End := { Offset := 4, Line := 2, Col := 2 } }]) := by decide

/-- C5 (counterexample): not every operation returns normally on out-of-range
positions.  With a negative offset installed by `NewScannerAt`, or an offset
past the end installed by `SetPos`, `Slice` performs Go string slicing with
out-of-range bounds and panics (modelled as `none`). -/
theorem C5_counterexample :
    (NewScannerAt [97, 98, 99] { Offset := -1, Line := 1, Col := 1 }).Slice = none ∧
    ((NewScanner [97, 98, 99]).SetPos { Offset := 10, Line := 1, Col := 11 }).Slice = none := by
  decide

/-- C5 (amended): `Pop`, `Peek`, `Next` and `IsEOF` are total on every
position (they are plain functions in this embedding, with out-of-range
offsets saturating to end-of-input), but `Slice` and `SliceInc` return
normally exactly when the mark is at/past the end of the text or the slice
bounds are in range (`0 ≤ mark ≤ end ≤ len`); outside that they fault. -/
theorem C5_slice_totality (s : Scanner) :
    ((s.Slice).isSome = true ↔ ((s.text.length : Int) ≤ s.markedPos.Offset ∨
      (0 ≤ s.markedPos.Offset ∧ s.markedPos.Offset ≤ s.pos.Offset ∧
        s.pos.Offset ≤ (s.text.length : Int)))) ∧
    (((s.SliceInc).1).isSome = true ↔ ((s.text.length : Int) ≤ s.markedPos.Offset ∨
      (0 ≤ s.markedPos.Offset ∧ s.markedPos.Offset ≤ ((s.Pop).2).pos.Offset ∧
        ((s.Pop).2).pos.Offset ≤ (s.text.length : Int)))) := by
  constructor
  · rw [Scanner.Slice]
    split
    · rename_i h; simp [h]
    · rename_i h
      split
      · rename_i h2; simp [h, h2]
      · rename_i h2; simp [h, h2]
  · rw [Scanner.SliceInc]
    split
    · rename_i h; simp [h]
    · rename_i h
      dsimp only
      split
      · rename_i h2
        rw [(Pop_state s).1, (Pop_state s).2] at h2
        simp [h, h2]
      · rename_i h2
        rw [(Pop_state s).1, (Pop_state s).2] at h2
        simp [h, h2]

/-- C6 (counterexample): `IsEOF` is not equivalent to "a Pop at the current
position would return the sentinel": on `"\\\n"` at offset 0, `IsEOF` is
false yet `Pop` returns the sentinel (the escaped break consumes the whole
text). -/
theorem C6_counterexample :
    (NewScanner [92, 10]).IsEOF = false ∧ ((NewScanner [92, 10]).Pop).1 = EOF := by decide

/-- C6 (amended): `IsEOF` holds exactly for a negative offset or an offset
at/past the byte length (hence for empty text at offset 0); when `IsEOF`
holds, `Pop` returns the sentinel and changes no state (so repeated pops at
end keep returning the sentinel without moving); and whenever `Pop` returns
the sentinel the resulting scanner is at end of input. -/
theorem C6_eof_sentinel (s : Scanner) :
    (s.IsEOF = true ↔ (s.pos.Offset < 0 ∨ (s.text.length : Int) ≤ s.pos.Offset)) ∧
    (s.IsEOF = true → s.Pop = (EOF, s)) ∧
    ((s.Pop).1 = EOF → ((s.Pop).2).IsEOF = true) :=
  ⟨by simp [Scanner.IsEOF], Pop_of_isEOF s, Pop_eof_isEOF s⟩

/-- C6 witness: the empty text is at end of input at offset 0 and popping it
is a sentinel-producing no-op. -/
theorem C6_eof_sentinel_witness :
    (NewScanner []).IsEOF = true ∧ (NewScanner []).Pop = (EOF, NewScanner []) :=
  ⟨by decide, (C6_eof_sentinel (NewScanner [])).2.1 (by decide)⟩

/-- C8 (counterexample): `SliceInc` is not always `Slice` with at most one
character's text appended, and `SliceInc = Slice` does not hold only at end
of input.  With text `"\ra\rb"` and the position set to offset 2 (mark at 0,
flag clear), `Slice` returns the raw `"\ra"` while `SliceInc`'s internal pop
sets the dirty flag, so the whole range is normalized to `"\na\n"`, of which
`"\ra"` is not a prefix.  And on `"a\\\n"` after one pop, `SliceInc` equals
`Slice` (`"a"`) although the scanner is not at end of input. -/
theorem C8_counterexample :
    ((NewScanner [13, 97, 13, 98]).SetPos { Offset := 2, Line := 1, Col := 1 }).Slice
      = some [13, 97] ∧
    (((NewScanner [13, 97, 13, 98]).SetPos { Offset := 2, Line := 1, Col := 1 }).SliceInc).1
      = some [10, 97, 10] ∧
    List.isPrefixOf [13, 97] [10, 97, 10] = false ∧
    ((popNState 1 (NewScanner [97, 92, 10])).SliceInc).1 = some [97] ∧
    (popNState 1 (NewScanner [97, 92, 10])).Slice = some [97] ∧
    (popNState 1 (NewScanner [97, 92, 10])).IsEOF = false := by decide

/-- C9: the claim says `Slice` and `SliceInc` have no side effect and that
`SliceInc`'s pop-then-restore restores the complete scanner state.  The code
violates this for `SliceInc`: only the `TextPosition` is restored, so on text
`"\r"` the internal pop's setting of `isComplexSinceMark` persists after the
call (the position, mark and text are unchanged, and the returned string is
the normalized `"\n"`). -/
theorem C9_sliceinc_mutates_dirty_flag :
    (NewScanner [13]).isComplexSinceMark = false ∧
    ((NewScanner [13]).SliceInc).2.isComplexSinceMark = true ∧
    ((NewScanner [13]).SliceInc).2.pos = (NewScanner [13]).pos ∧
    ((NewScanner [13]).SliceInc).2.markedPos = (NewScanner [13]).markedPos ∧
    ((NewScanner [13]).SliceInc).2.text = (NewScanner [13]).text ∧
    ((NewScanner [13]).SliceInc).1 = some [10] := by decide

/-- C10: `Pop` terminates on every state — `popFuel` computes `Pop` for every
fuel beyond the remaining byte count, so the recursion depth is bounded by
the remaining bytes; whenever `Pop` returns a non-sentinel rune the offset
strictly increases; and a full pop run from any state yields at most
`len(text)` non-sentinel runes and leaves the scanner at end of input (which
is what the `ForEach`/`Stream` loops iterate to). -/
theorem C10_pop_terminates :
    (∀ (s : Scanner) (f : Nat), s.text.length - s.pos.Offset.toNat < f →
      popFuel f s = s.Pop) ∧
    (∀ s : Scanner, (s.Pop).1 ≠ EOF → s.pos.Offset < (s.Pop).2.pos.Offset) ∧
    (∀ s : Scanner, (popAll s).1.length ≤ s.text.length ∧ ((popAll s).2).IsEOF = true) := by
  refine ⟨?_, ?_, ?_⟩
  · intro s f h
    exact (Pop_eq_popFuel s f h).symm
  · intro s h
    have := (Pop_mono s).2.1 h
    omega
  · intro s
    exact ⟨popAll_len s, popAll_end s⟩

/-- C10 witness: the fuel-irrelevance and strict-increase statements at the
concrete input `"a\\\nb"`. -/
theorem C10_pop_terminates_witness :
    popFuel 6 (NewScanner [97, 92, 10, 98]) = (NewScanner [97, 92, 10, 98]).Pop ∧
    (NewScanner [97, 92, 10, 98]).pos.Offset <
      ((NewScanner [97, 92, 10, 98]).Pop).2.pos.Offset :=
  ⟨C10_pop_terminates.1 (NewScanner [97, 92, 10, 98]) 6 (by decide),
   C10_pop_terminates.2.1 (NewScanner [97, 92, 10, 98]) (by decide)⟩

/-! ## Recursion equations and algebra of `replaceAll` -/

theorem replaceAllFuel_irrel (f₁ : Nat) : ∀ (f₂ : Nat) (s pat rep : List Nat), pat ≠ [] →
    s.length ≤ f₁ → s.length ≤ f₂ → replaceAllFuel f₁ s pat rep = replaceAllFuel f₂ s pat rep := by
  induction f₁ with
  | zero =>
    intro f₂ s pat rep hp h1 _
    have : s = [] := List.length_eq_zero.mp (by omega)
    subst this
    cases f₂ <;> rfl
  | succ f₁ ih =>
    intro f₂ s pat rep hp h1 h2
    match s with
    | [] => cases f₂ <;> rfl
    | b :: tl =>
      obtain ⟨g, rfl⟩ : ∃ g, f₂ = g + 1 := by
        cases f₂ with
        | zero => simp at h2
        | succ g => exact ⟨g, rfl⟩
      simp only [replaceAllFuel]
      have hpl : 1 ≤ pat.length := List.length_pos.mpr hp
      split
      · rename_i hpre
        have hle : pat.length ≤ (b :: tl).length :=
          (List.isPrefixOf_iff_prefix.mp hpre).length_le
        congr 1
        apply ih
        · exact hp
        · simp only [List.length_drop, List.length_cons] at *
          omega
        · simp only [List.length_drop, List.length_cons] at *
          omega
      · congr 1
        apply ih
        · exact hp
        · simp only [List.length_cons] at h1; omega
        · simp only [List.length_cons] at h2; omega

theorem replaceAll_nil (pat rep : List Nat) : replaceAll [] pat rep = [] := by
  rw [replaceAll]
  split <;> rfl

theorem replaceAll_cons_pos {b : Nat} {tl pat rep : List Nat} (hp : pat ≠ [])
    (h : pat.isPrefixOf (b :: tl) = true) :
    replaceAll (b :: tl) pat rep = rep ++ replaceAll ((b :: tl).drop pat.length) pat rep := by
  rw [replaceAll, replaceAll, if_neg hp, if_neg hp]
  simp only [List.length_cons, replaceAllFuel, h, if_true]
  congr 1
  have hpl : 1 ≤ pat.length := List.length_pos.mpr hp
  have hle : pat.length ≤ (b :: tl).length := (List.isPrefixOf_iff_prefix.mp h).length_le
  apply replaceAllFuel_irrel
  · exact hp
  · simp only [List.length_drop, List.length_cons] at *
    omega
  · simp only [List.length_drop, List.length_cons] at *
    omega

theorem replaceAll_cons_neg {b : Nat} {tl pat rep : List Nat} (hp : pat ≠ [])
    (h : pat.isPrefixOf (b :: tl) = false) :
    replaceAll (b :: tl) pat rep = b :: replaceAll tl pat rep := by
  rw [replaceAll, replaceAll, if_neg hp, if_neg hp]
  simp only [List.length_cons, replaceAllFuel, h]
  simp

-- Replacement is the identity when the pattern's first byte does not occur.
theorem replaceAll_id_of_not_mem {a : Nat} {pat : List Nat} (hhead : pat.head? = some a) :
    ∀ (l rep : List Nat), a ∉ l → replaceAll l pat rep = l := by
  intro l
  induction l with
  | nil => intro rep _; exact replaceAll_nil pat rep
  | cons b tl ih =>
    intro rep hmem
    have hp : pat ≠ [] := by
      intro h; rw [h] at hhead; exact Option.noConfusion hhead
    have hne : ¬ (pat.isPrefixOf (b :: tl) = true) := by
      intro h
      rcases pat with _ | ⟨p0, ptl⟩
      · exact hp rfl
      · simp only [List.head?_cons, Option.some.injEq] at hhead
        subst hhead
        simp only [List.isPrefixOf, Bool.and_eq_true, beq_iff_eq] at h
        exact hmem (by rw [h.1]; exact List.mem_cons_self b tl)
    rw [replaceAll_cons_neg hp (Bool.not_eq_true _ ▸ (eq_false_of_ne_true hne))]
    rw [ih rep (fun hx => hmem (List.mem_cons_of_mem b hx))]

-- Deleting backslash-LF pairs is the identity when no such pair occurs.
theorem replaceAll_escPair_id : ∀ (l : List Nat), hasEscPair l = false →
    replaceAll l [92, 10] [] = l := by
  intro l
  induction l with
  | nil => intro _; exact replaceAll_nil _ _
  | cons b tl ih =>
    intro hno
    have hne : ([92, 10].isPrefixOf (b :: tl)) = false := by
      rcases tl with _ | ⟨c, tl'⟩
      · simp [List.isPrefixOf]
      · simp only [List.isPrefixOf, Bool.and_eq_true, beq_iff_eq, Bool.and_eq_false_iff]
        by_contra hcon
        push_neg at hcon
        simp only [ne_eq, Bool.not_eq_false] at hcon
        simp only [List.isPrefixOf, Bool.and_eq_true, beq_iff_eq] at hcon
        rcases hcon with ⟨h1, h2, _⟩
        rw [hasEscPair, h1, h2] at hno
        simp at hno
    rw [replaceAll_cons_neg (by simp) hne]
    have htl : hasEscPair tl = false := by
      rcases tl with _ | ⟨c, tl'⟩
      · rfl
      · rw [hasEscPair] at hno
        exact (Bool.or_eq_false_iff.mp hno).2
    rw [ih htl]

-- Output of a replacement with a non-empty replacement string is empty only
-- for empty input.
theorem replaceAll_ne_nil {l pat rep : List Nat} (hrep : rep ≠ []) (hl : l ≠ []) :
    replaceAll l pat rep ≠ [] := by
  rcases l with _ | ⟨b, tl⟩
  · exact absurd rfl hl
  · by_cases hp : pat = []
    · rw [replaceAll, if_pos hp]; simp
    · by_cases hpre : pat.isPrefixOf (b :: tl) = true
      · rw [replaceAll_cons_pos hp hpre]
        simp [hrep]
      · rw [replaceAll_cons_neg hp (eq_false_of_ne_true hpre)]
        simp

-- A single-byte replacement distributes over concatenation.
theorem replaceAll_append_one (a : Nat) (rep : List Nat) : ∀ u v : List Nat,
    replaceAll (u ++ v) [a] rep = replaceAll u [a] rep ++ replaceAll v [a] rep := by
  intro u
  induction u with
  | nil => intro v; simp [replaceAll_nil]
  | cons x u' ih =>
    intro v
    by_cases hx : x = a
    · subst hx
      have hpre : ([x].isPrefixOf (x :: (u' ++ v))) = true := by simp [List.isPrefixOf]
      have hpre' : ([x].isPrefixOf (x :: u')) = true := by simp [List.isPrefixOf]
      rw [List.cons_append, replaceAll_cons_pos (by simp) hpre,
        replaceAll_cons_pos (by simp) hpre']
      simp only [List.length_cons, List.length_nil, List.drop_succ_cons, List.drop_zero]
      rw [ih v]
      simp
    · have hpre : ([a].isPrefixOf (x :: (u' ++ v))) = false := by
        simp [List.isPrefixOf, hx]
        intro h; exact absurd h.symm hx
      have hpre' : ([a].isPrefixOf (x :: u')) = false := by
        simp [List.isPrefixOf, hx]
        intro h; exact absurd h.symm hx
      rw [List.cons_append, replaceAll_cons_neg (by simp) hpre,
        replaceAll_cons_neg (by simp) hpre']
      rw [ih v]
      simp

-- A two-byte replacement distributes over concatenation provided no match
-- spans the boundary.
theorem replaceAll_append_two (a b : Nat) (rep : List Nat) : ∀ (n : Nat) (u v : List Nat),
    u.length ≤ n →
    ¬(u.getLast? = some a ∧ v.head? = some b) →
    replaceAll (u ++ v) [a, b] rep = replaceAll u [a, b] rep ++ replaceAll v [a, b] rep := by
  intro n
  induction n with
  | zero =>
    intro u v hn _
    have : u = [] := List.length_eq_zero.mp (by omega)
    subst this
    simp [replaceAll_nil]
  | succ n ih =>
    intro u v hn hb
    match u with
    | [] => simp [replaceAll_nil]
    | [x] =>
      have hpre : ([a, b].isPrefixOf (x :: v)) = false := by
        rcases v with _ | ⟨y, v'⟩
        · simp [List.isPrefixOf]
        · simp only [List.isPrefixOf, Bool.and_eq_false_iff, beq_eq_false_iff_ne, ne_eq]
          by_contra hcon
          push_neg at hcon
          simp only [Bool.not_eq_false, beq_iff_eq, Bool.and_eq_true] at hcon
          rcases hcon with ⟨h1, h2, _⟩
          exact hb (by simp [h1.symm, h2.symm])
      have hpre' : ([a, b].isPrefixOf [x]) = false := by simp [List.isPrefixOf]
      rw [List.cons_append, List.nil_append, replaceAll_cons_neg (by simp) hpre,
        replaceAll_cons_neg (by simp) hpre']
      simp [replaceAll_nil]
    | x :: y :: u'' =>
      by_cases hm : x = a ∧ y = b
      · rcases hm with ⟨rfl, rfl⟩
        have hpre : ([x, y].isPrefixOf (x :: y :: (u'' ++ v))) = true := by
          simp [List.isPrefixOf]
        have hpre' : ([x, y].isPrefixOf (x :: y :: u'')) = true := by
          simp [List.isPrefixOf]
        rw [show (x :: y :: u'') ++ v = x :: y :: (u'' ++ v) by simp,
          replaceAll_cons_pos (by simp) hpre, replaceAll_cons_pos (by simp) hpre']
        simp only [List.length_cons, List.length_nil, List.drop_succ_cons, List.drop_zero]
        have hbu : ¬(u''.getLast? = some x ∧ v.head? = some y) := by
          rcases u'' with _ | ⟨z, u₃⟩
          · simp
          · intro hcon
            apply hb
            simpa using hcon
        rw [ih u'' v (by simp only [List.length_cons] at hn; omega) hbu]
        simp
      · have hpre : ([a, b].isPrefixOf (x :: y :: (u'' ++ v))) = false := by
          simp only [List.isPrefixOf, Bool.and_eq_false_iff, beq_eq_false_iff_ne, ne_eq]
          by_contra hcon
          push_neg at hcon
          simp only [Bool.not_eq_false, beq_iff_eq, Bool.and_eq_true] at hcon
          exact hm ⟨hcon.1.symm, hcon.2.1.symm⟩
        have hpre' : ([a, b].isPrefixOf (x :: y :: u'')) = false := by
          simp only [List.isPrefixOf, Bool.and_eq_false_iff, beq_eq_false_iff_ne, ne_eq]
          by_contra hcon
          push_neg at hcon
          simp only [Bool.not_eq_false, beq_iff_eq, Bool.and_eq_true] at hcon
          exact hm ⟨hcon.1.symm, hcon.2.1.symm⟩
        rw [show (x :: y :: u'') ++ v = x :: y :: (u'' ++ v) by simp]
        rw [replaceAll_cons_neg (by simp) hpre, replaceAll_cons_neg (by simp) hpre']
        have hbu : ¬((y :: u'').getLast? = some a ∧ v.head? = some b) := by
          intro hcon
          apply hb
          simpa using hcon
        have hih := ih (y :: u'') v (by simp only [List.length_cons] at hn ⊢; omega) hbu
        simp only [List.cons_append] at hih
        rw [hih]
        simp

theorem getLast?_cons_ne {α : Type} {X : List α} (hX : X ≠ []) (b : α) :
    (b :: X).getLast? = X.getLast? := by
  rcases X with _ | ⟨x, xs⟩
  · exact absurd rfl hX
  · exact List.getLast?_cons_cons

theorem getLast?_append_right {α : Type} {u v : List α} (hv : v ≠ []) :
    (u ++ v).getLast? = v.getLast? := by
  induction u with
  | nil => rfl
  | cons x u' ih =>
    rw [List.cons_append, getLast?_cons_ne _ x, ih]
    intro h
    exact hv (by simpa using (List.append_eq_nil.mp h).2)

theorem getLast?_drop {α : Type} {l : List α} {k : Nat} (h : l.drop k ≠ []) :
    l.getLast? = (l.drop k).getLast? := by
  conv_lhs => rw [← List.take_append_drop k l]
  exact getLast?_append_right h

-- If a replacement output ends in 92 and the replacement string does not,
-- the input ended in 92.
theorem getLast?_replaceAll_92 : ∀ (n : Nat) (l pat rep : List Nat), l.length ≤ n →
    pat ≠ [] → rep ≠ [] → rep.getLast? ≠ some 92 →
    (replaceAll l pat rep).getLast? = some 92 → l.getLast? = some 92 := by
  intro n
  induction n with
  | zero =>
    intro l pat rep hl _ _ _ hlast
    have : l = [] := List.length_eq_zero.mp (by omega)
    subst this
    rw [replaceAll_nil] at hlast
    exact absurd hlast (by simp)
  | succ n ih =>
    intro l pat rep hl hp hrep hrep92 hlast
    match l with
    | [] =>
      rw [replaceAll_nil] at hlast
      exact absurd hlast (by simp)
    | b :: tl =>
      have hpl : 1 ≤ pat.length := List.length_pos.mpr hp
      by_cases hpre : pat.isPrefixOf (b :: tl) = true
      · rw [replaceAll_cons_pos hp hpre] at hlast
        by_cases hX : replaceAll ((b :: tl).drop pat.length) pat rep = []
        · rw [hX, List.append_nil] at hlast
          exact absurd hlast hrep92
        · rw [getLast?_append_right hX] at hlast
          have hdne : (b :: tl).drop pat.length ≠ [] := by
            intro h
            rw [h, replaceAll_nil] at hX
            exact hX rfl
          have := ih ((b :: tl).drop pat.length) pat rep
            (by simp only [List.length_drop, List.length_cons]
                simp only [List.length_cons] at hl
                omega) hp hrep hrep92 hlast
          rw [getLast?_drop hdne]
          exact this
      · rw [replaceAll_cons_neg hp (eq_false_of_ne_true hpre)] at hlast
        by_cases hX : replaceAll tl pat rep = []
        · have htl : tl = [] := by
            by_contra hcon
            exact replaceAll_ne_nil hrep hcon hX
          subst htl
          rw [hX] at hlast
          simpa using hlast
        · have htl : tl ≠ [] := by
            intro h
            rw [h, replaceAll_nil] at hX
            exact hX rfl
          rw [getLast?_cons_ne hX] at hlast
          have := ih tl pat rep (by simp only [List.length_cons] at hl; omega)
            hp hrep hrep92 hlast
          rw [getLast?_cons_ne htl]
          exact this

-- The first two normalization passes preserve a head byte other than CR.
theorem head?_norm12 (l : List Nat) (h13 : l.head? ≠ some 13) :
    (replaceAll (replaceAll l [13, 10] [10]) [13] [10]).head? = l.head? := by
  rcases l with _ | ⟨b, tl⟩
  · rw [replaceAll_nil, replaceAll_nil]
  · have hb : b ≠ 13 := by
      intro h; exact h13 (by rw [h]; rfl)
    have hpre1 : ([13, 10].isPrefixOf (b :: tl)) = false := by
      simp only [List.isPrefixOf, Bool.and_eq_false_iff, beq_eq_false_iff_ne, ne_eq]
      left; omega
    rw [replaceAll_cons_neg (by simp) hpre1]
    have hpre2 : ([13].isPrefixOf (b :: replaceAll tl [13, 10] [10])) = false := by
      simp only [List.isPrefixOf, Bool.and_eq_false_iff, beq_eq_false_iff_ne, ne_eq]
      left; omega
    rw [replaceAll_cons_neg (by simp) hpre2]
    simp

-- Normalization distributes over concatenation when no CRLF pair and no
-- backslash-LF pair spans the boundary.
theorem normalizeSlice_append (u v : List Nat)
    (h1 : ¬(u.getLast? = some 13 ∧ v.head? = some 10))
    (h2 : u.getLast? = some 92 → v.head? ≠ some 10 ∧ v.head? ≠ some 13) :
    normalizeSlice (u ++ v) = normalizeSlice u ++ normalizeSlice v := by
  rw [normalizeSlice, normalizeSlice, normalizeSlice]
  rw [replaceAll_append_two 13 10 [10] u.length u v (le_refl _) h1]
  rw [replaceAll_append_one 13 [10]]
  rw [replaceAll_append_two 92 10 []
    (replaceAll (replaceAll u [13, 10] [10]) [13] [10]).length _ _ (le_refl _) ?_]
  intro ⟨hl, hh⟩
  have hu1 : (replaceAll u [13, 10] [10]).getLast? = some 92 :=
    getLast?_replaceAll_92 (replaceAll u [13, 10] [10]).length _ _ _ (le_refl _)
      (by simp) (by simp) (by simp) hl
  have hu92 : u.getLast? = some 92 :=
    getLast?_replaceAll_92 u.length _ _ _ (le_refl _) (by simp) (by simp) (by simp) hu1
  rcases h2 hu92 with ⟨hv10, hv13⟩
  rw [head?_norm12 v hv13] at hh
  exact hv10 hh

-- Rule G: a byte ≥ 0x80 (multibyte rune or invalid byte) pops as whatever
-- the decoder yields, advancing by the decoded width; no flag change.
theorem pop_other {s : Scanner} {c : Nat} {rest : List Nat}
    (h0 : 0 ≤ s.pos.Offset)
    (hdrop : s.text.drop s.pos.Offset.toNat = c :: rest)
    (hc : 0x80 ≤ c) :
    s.Pop = ((decodeRune (c :: rest)).1,
      { s with pos := { s.pos with Offset := s.pos.Offset + (decodeRune (c :: rest)).2, Col := s.pos.Col + 1 } }) := by
  have hne := scanner_not_eof hdrop h0
  have hval := decodeRune_val_ge c rest hc
  rw [Scanner.Pop]
  simp only [popFuel, hne, if_false, Bool.false_eq_true, hdrop]
  rw [if_neg (by omega), if_neg (by omega), if_neg (by omega)]

-- All bytes of a decoded chunk headed by a byte ≥ 0x80 are themselves ≥ 0x80.
theorem decodeRune_chunk_ge (c0 : Nat) (rest : List Nat) (hc : 0x80 ≤ c0) :
    ∀ x ∈ (c0 :: rest).take (decodeRune (c0 :: rest)).2, 0x80 ≤ x := by
  simp only [decodeRune]
  have hlt : ¬ c0 < 0x80 := by omega
  simp only [hlt, if_false]
  rcases h8 : utf8Info c0 with _ | ⟨sz, lo, hi⟩
  · intro x hx
    simp only [List.take_succ_cons, List.take_zero] at hx
    simp only [List.mem_singleton] at hx
    omega
  · have hspec := utf8Info_eq_some h8
    simp only
    repeat' split
    all_goals dsimp only
    all_goals intro x hx
    all_goals simp only [List.take_succ_cons, List.take_zero, List.mem_singleton,
      List.mem_cons, List.not_mem_nil, or_false] at hx
    all_goals omega

theorem hasEscPair_no92 : ∀ l : List Nat, 92 ∉ l → hasEscPair l = false := by
  intro l
  induction l with
  | nil => intro _; rfl
  | cons a tl ih =>
    intro h
    rcases tl with _ | ⟨b, tl'⟩
    · rfl
    · rw [hasEscPair]
      have ha : a ≠ 92 := fun hx => h (by rw [hx]; exact List.mem_cons_self _ _)
      have : hasEscPair (b :: tl') = false := ih (fun hx => h (List.mem_cons_of_mem a hx))
      simp [ha, this]

theorem mem_of_getLast?_eq {α : Type} : ∀ {l : List α} {x : α}, l.getLast? = some x → x ∈ l := by
  intro l
  induction l with
  | nil => intro x h; exact absurd h (by simp)
  | cons a tl ih =>
    intro x h
    rcases tl with _ | ⟨b, tl'⟩
    · simp only [List.getLast?_singleton, Option.some.injEq] at h
      simp [h]
    · rw [List.getLast?_cons_cons] at h
      exact List.mem_cons_of_mem a (ih h)

theorem substr_take {t : List Nat} {o : Int} (k : Nat) (h0 : 0 ≤ o) :
    substr t o (o + (k : Int)) = (t.drop o.toNat).take k := by
  rw [substr]
  congr 1
  omega

theorem substr_split {t : List Nat} {o m o' : Int} (h0 : 0 ≤ o) (h1 : o ≤ m) (h2 : m ≤ o') :
    substr t o o' = substr t o m ++ substr t m o' := by
  rw [substr, substr, substr]
  have e1 : (o' - o).toNat = (m - o).toNat + (o' - m).toNat := by omega
  rw [e1, List.take_add]
  have e2 : List.drop (m - o).toNat (List.drop o.toNat t) = List.drop m.toNat t := by
    rw [List.drop_drop]
    congr 1
    omega
  rw [e2]

theorem substr_take' {t : List Nat} {o o' : Int} (k : Nat) (h0 : 0 ≤ o) (hk : o' - o = (k : Int)) :
    substr t o o' = (t.drop o.toNat).take k := by
  rw [substr]
  congr 1
  omega

theorem take_cons_ne_nil {b : Nat} {r : List Nat} {k : Nat} (hk : 1 ≤ k) :
    (b :: r).take k ≠ [] := by
  cases k with
  | zero => omega
  | succ k => simp

/-- Facts about the byte chunk consumed by one `Pop` from a non-EOF state:
the chunk is non-empty; if it ends in CR the next byte of the text is not LF
(a CR chunk only ends before a non-LF byte, since CRLF is consumed whole);
if it ends in a backslash the next byte is neither LF nor CR (else the
lookahead would have elided it); and when the pop leaves the dirty flag
clear, the chunk contains no CR and no backslash-LF pair. -/
theorem pop_chunk (n : Nat) : ∀ s : Scanner,
    s.text.length - s.pos.Offset.toNat ≤ n →
    0 ≤ s.pos.Offset → s.IsEOF = false →
    substr s.text s.pos.Offset ((s.Pop).2.pos.Offset) ≠ [] ∧
    ((substr s.text s.pos.Offset ((s.Pop).2.pos.Offset)).getLast? = some 13 →
      (s.text.drop ((s.Pop).2.pos.Offset).toNat).head? ≠ some 10) ∧
    ((substr s.text s.pos.Offset ((s.Pop).2.pos.Offset)).getLast? = some 92 →
      (s.text.drop ((s.Pop).2.pos.Offset).toNat).head? ≠ some 10 ∧
      (s.text.drop ((s.Pop).2.pos.Offset).toNat).head? ≠ some 13) ∧
    ((s.Pop).2.isComplexSinceMark = false →
      (13 ∉ substr s.text s.pos.Offset ((s.Pop).2.pos.Offset) ∧
       hasEscPair (substr s.text s.pos.Offset ((s.Pop).2.pos.Offset)) = false)) := by
  induction n with
  | zero =>
    intro s hn h0 hne
    simp only [Scanner.IsEOF, decide_eq_false_iff_not, not_or, not_lt, not_le] at hne
    omega
  | succ n ih =>
    intro s hn h0 hne
    have hoff : 0 ≤ s.pos.Offset ∧ s.pos.Offset < (s.text.length : Int) := by
      simp only [Scanner.IsEOF, decide_eq_false_iff_not, not_or, not_lt, not_le] at hne
      omega
    obtain ⟨b, r, hdrop⟩ : ∃ b r, s.text.drop s.pos.Offset.toNat = b :: r := by
      rcases hd : s.text.drop s.pos.Offset.toNat with _ | ⟨b, r⟩
      · have := congrArg List.length hd
        simp only [List.length_drop, List.length_nil] at this
        omega
      · exact ⟨b, r, rfl⟩
    have hdrop1 : s.text.drop (s.pos.Offset.toNat + 1) = r := by
      have := drop_shift hdrop 1
      simpa using this
    by_cases hb10 : b = 10
    · -- LF chunk [10]
      subst hb10
      rw [pop_lf h0 hdrop]
      dsimp only
      have hsub : substr s.text s.pos.Offset (s.pos.Offset + 1) =
          (s.text.drop s.pos.Offset.toNat).take 1 := substr_take' 1 h0 (by omega)
      rw [hsub, hdrop]
      refine ⟨by simp, by simp, by simp, fun _ => by simp [hasEscPair]⟩
    · by_cases hb13 : b = 13
      · subst hb13
        by_cases h10 : r.head? = some 10
        · -- CRLF chunk [13, 10]
          obtain ⟨r', rfl⟩ : ∃ r', r = 10 :: r' := by
            rcases r with _ | ⟨d, r'⟩
            · simp at h10
            · simp only [List.head?_cons, Option.some.injEq] at h10
              exact ⟨r', by rw [h10]⟩
          rw [pop_crlf h0 hdrop]
          dsimp only
          have hsub : substr s.text s.pos.Offset (s.pos.Offset + 2) =
              (s.text.drop s.pos.Offset.toNat).take 2 := substr_take' 2 h0 (by omega)
          rw [hsub, hdrop]
          refine ⟨by simp, by simp, by simp, fun hflag => by simp at hflag⟩
        · -- lone CR chunk [13]
          rw [pop_cr_solo h0 hdrop h10]
          dsimp only
          have hsub : substr s.text s.pos.Offset (s.pos.Offset + 1) =
              (s.text.drop s.pos.Offset.toNat).take 1 := substr_take' 1 h0 (by omega)
          rw [hsub, hdrop]
          have hto : (s.pos.Offset + (1 : Int)).toNat = s.pos.Offset.toNat + 1 := by omega
          rw [hto, hdrop1]
          refine ⟨by simp, fun _ => h10, by simp, fun hflag => by simp at hflag⟩
      · by_cases hb92 : b = 92
        · subst hb92
          have hto1 : (s.pos.Offset + (1 : Int)).toNat = s.pos.Offset.toNat + 1 := by omega
          by_cases hesc : ((Scanner.Pop { pos := { Offset := s.pos.Offset + 1, Line := s.pos.Line, Col := s.pos.Col + 1 }, text := s.text, markedPos := s.markedPos, isComplexSinceMark := s.isComplexSinceMark })).1 = 10
          · -- escape (rule F): the chunk is the backslash, the break, and the
            -- chunk of the chained pop; its boundary facts come from that
            -- chained pop (or trivially when the chain reaches the end)
            rw [pop_backslash_esc h0 hdrop hesc]
            try dsimp only
            have htx1 : (Scanner.Pop { pos := { Offset := s.pos.Offset + 1, Line := s.pos.Line, Col := s.pos.Col + 1 }, text := s.text, markedPos := s.markedPos, isComplexSinceMark := s.isComplexSinceMark }).2.text = s.text := (Pop_state _).1
            rw [htx1]
            have hcur2 := (Pop_mono ({ pos := { Offset := s.pos.Offset + 1, Line := s.pos.Line, Col := s.pos.Col + 1 }, text := s.text, markedPos := s.markedPos, isComplexSinceMark := s.isComplexSinceMark } : Scanner)).2.1 (by rw [hesc]; decide)
            try dsimp only at hcur2
            have hcur2ub := (Pop_mono ({ pos := { Offset := s.pos.Offset + 1, Line := s.pos.Line, Col := s.pos.Col + 1 }, text := s.text, markedPos := s.markedPos, isComplexSinceMark := s.isComplexSinceMark } : Scanner)).2.2
            try dsimp only at hcur2ub
            have hflag : (Scanner.Pop { pos := (Scanner.Pop { pos := { Offset := s.pos.Offset + 1, Line := s.pos.Line, Col := s.pos.Col + 1 }, text := s.text, markedPos := s.markedPos, isComplexSinceMark := s.isComplexSinceMark }).2.pos, text := s.text, markedPos := (Scanner.Pop { pos := { Offset := s.pos.Offset + 1, Line := s.pos.Line, Col := s.pos.Col + 1 }, text := s.text, markedPos := s.markedPos, isComplexSinceMark := s.isComplexSinceMark }).2.markedPos, isComplexSinceMark := true }).2.isComplexSinceMark = true := Pop_flag_mono _ rfl
            have hmono3 := (Pop_mono ({ pos := (Scanner.Pop { pos := { Offset := s.pos.Offset + 1, Line := s.pos.Line, Col := s.pos.Col + 1 }, text := s.text, markedPos := s.markedPos, isComplexSinceMark := s.isComplexSinceMark }).2.pos, text := s.text, markedPos := (Scanner.Pop { pos := { Offset := s.pos.Offset + 1, Line := s.pos.Line, Col := s.pos.Col + 1 }, text := s.text, markedPos := s.markedPos, isComplexSinceMark := s.isComplexSinceMark }).2.markedPos, isComplexSinceMark := true } : Scanner)).1
            try dsimp only at hmono3
            have hboth :
                ((substr s.text s.pos.Offset ((Scanner.Pop { pos := (Scanner.Pop { pos := { Offset := s.pos.Offset + 1, Line := s.pos.Line, Col := s.pos.Col + 1 }, text := s.text, markedPos := s.markedPos, isComplexSinceMark := s.isComplexSinceMark }).2.pos, text := s.text, markedPos := (Scanner.Pop { pos := { Offset := s.pos.Offset + 1, Line := s.pos.Line, Col := s.pos.Col + 1 }, text := s.text, markedPos := s.markedPos, isComplexSinceMark := s.isComplexSinceMark }).2.markedPos, isComplexSinceMark := true }).2.pos.Offset)).getLast? = some 13 →
                  (s.text.drop ((Scanner.Pop { pos := (Scanner.Pop { pos := { Offset := s.pos.Offset + 1, Line := s.pos.Line, Col := s.pos.Col + 1 }, text := s.text, markedPos := s.markedPos, isComplexSinceMark := s.isComplexSinceMark }).2.pos, text := s.text, markedPos := (Scanner.Pop { pos := { Offset := s.pos.Offset + 1, Line := s.pos.Line, Col := s.pos.Col + 1 }, text := s.text, markedPos := s.markedPos, isComplexSinceMark := s.isComplexSinceMark }).2.markedPos, isComplexSinceMark := true }).2.pos.Offset).toNat).head? ≠ some 10) ∧
                ((substr s.text s.pos.Offset ((Scanner.Pop { pos := (Scanner.Pop { pos := { Offset := s.pos.Offset + 1, Line := s.pos.Line, Col := s.pos.Col + 1 }, text := s.text, markedPos := s.markedPos, isComplexSinceMark := s.isComplexSinceMark }).2.pos, text := s.text, markedPos := (Scanner.Pop { pos := { Offset := s.pos.Offset + 1, Line := s.pos.Line, Col := s.pos.Col + 1 }, text := s.text, markedPos := s.markedPos, isComplexSinceMark := s.isComplexSinceMark }).2.markedPos, isComplexSinceMark := true }).2.pos.Offset)).getLast? = some 92 →
                  (s.text.drop ((Scanner.Pop { pos := (Scanner.Pop { pos := { Offset := s.pos.Offset + 1, Line := s.pos.Line, Col := s.pos.Col + 1 }, text := s.text, markedPos := s.markedPos, isComplexSinceMark := s.isComplexSinceMark }).2.pos, text := s.text, markedPos := (Scanner.Pop { pos := { Offset := s.pos.Offset + 1, Line := s.pos.Line, Col := s.pos.Col + 1 }, text := s.text, markedPos := s.markedPos, isComplexSinceMark := s.isComplexSinceMark }).2.markedPos, isComplexSinceMark := true }).2.pos.Offset).toNat).head? ≠ some 10 ∧
                  (s.text.drop ((Scanner.Pop { pos := (Scanner.Pop { pos := { Offset := s.pos.Offset + 1, Line := s.pos.Line, Col := s.pos.Col + 1 }, text := s.text, markedPos := s.markedPos, isComplexSinceMark := s.isComplexSinceMark }).2.pos, text := s.text, markedPos := (Scanner.Pop { pos := { Offset := s.pos.Offset + 1, Line := s.pos.Line, Col := s.pos.Col + 1 }, text := s.text, markedPos := s.markedPos, isComplexSinceMark := s.isComplexSinceMark }).2.markedPos, isComplexSinceMark := true }).2.pos.Offset).toNat).head? ≠ some 13) := by
              by_cases heof3 : Scanner.IsEOF ({ pos := (Scanner.Pop { pos := { Offset := s.pos.Offset + 1, Line := s.pos.Line, Col := s.pos.Col + 1 }, text := s.text, markedPos := s.markedPos, isComplexSinceMark := s.isComplexSinceMark }).2.pos, text := s.text, markedPos := (Scanner.Pop { pos := { Offset := s.pos.Offset + 1, Line := s.pos.Line, Col := s.pos.Col + 1 }, text := s.text, markedPos := s.markedPos, isComplexSinceMark := s.isComplexSinceMark }).2.markedPos, isComplexSinceMark := true } : Scanner) = true
              · rw [Pop_of_isEOF _ heof3]
                try dsimp only
                simp only [Scanner.IsEOF, decide_eq_true_eq] at heof3
                try dsimp only at heof3
                have hdropemp : s.text.drop ((Scanner.Pop { pos := { Offset := s.pos.Offset + 1, Line := s.pos.Line, Col := s.pos.Col + 1 }, text := s.text, markedPos := s.markedPos, isComplexSinceMark := s.isComplexSinceMark }).2.pos.Offset).toNat = [] := by
                  apply List.drop_eq_nil_of_le
                  omega
                rw [hdropemp]
                exact ⟨fun _ => by simp, fun _ => by simp⟩
              · rcases ih ({ pos := (Scanner.Pop { pos := { Offset := s.pos.Offset + 1, Line := s.pos.Line, Col := s.pos.Col + 1 }, text := s.text, markedPos := s.markedPos, isComplexSinceMark := s.isComplexSinceMark }).2.pos, text := s.text, markedPos := (Scanner.Pop { pos := { Offset := s.pos.Offset + 1, Line := s.pos.Line, Col := s.pos.Col + 1 }, text := s.text, markedPos := s.markedPos, isComplexSinceMark := s.isComplexSinceMark }).2.markedPos, isComplexSinceMark := true } : Scanner)
                  (by try dsimp only
                      omega)
                  (by try dsimp only
                      omega)
                  (by simp only [Bool.not_eq_true] at heof3; exact heof3)
                  with ⟨hne2, ha2, hb2, _⟩
                try dsimp only at hne2 ha2 hb2
                rw [substr_split h0 (by omega) hmono3]
                rw [getLast?_append_right hne2]
                exact ⟨ha2, hb2⟩
            refine ⟨?_, hboth.1, hboth.2, fun hf => by rw [hflag] at hf; simp at hf⟩
            rw [substr, hdrop]
            apply take_cons_ne_nil
            omega
          · -- literal backslash (rule E): chunk [92]; the byte after it is
            -- neither LF nor CR, otherwise the lookahead pop would be LF
            rw [pop_backslash_lit h0 hdrop hesc]
            dsimp only
            have hsub : substr s.text s.pos.Offset (s.pos.Offset + 1) =
                (s.text.drop s.pos.Offset.toNat).take 1 := substr_take' 1 h0 (by omega)
            rw [hsub, hdrop]
            rw [hto1, hdrop1]
            have hnothead : r.head? ≠ some 10 ∧ r.head? ≠ some 13 := by
              rcases r with _ | ⟨d, r'⟩
              · simp
              · have hdropS1 : (({ s with pos := { s.pos with Offset := s.pos.Offset + 1, Col := s.pos.Col + 1 } } : Scanner).text).drop
                    (({ s with pos := { s.pos with Offset := s.pos.Offset + 1, Col := s.pos.Col + 1 } } : Scanner).pos.Offset).toNat = d :: r' := by
                  dsimp only
                  rw [hto1, hdrop1]
                constructor
                · intro hh
                  simp only [List.head?_cons, Option.some.injEq] at hh
                  subst hh
                  exact hesc (by rw [pop_lf (by dsimp only; omega) hdropS1])
                · intro hh
                  simp only [List.head?_cons, Option.some.injEq] at hh
                  subst hh
                  by_cases h10' : r'.head? = some 10
                  · obtain ⟨r'', rfl⟩ : ∃ r'', r' = 10 :: r'' := by
                      rcases r' with _ | ⟨e, r''⟩
                      · simp at h10'
                      · simp only [List.head?_cons, Option.some.injEq] at h10'
                        exact ⟨r'', by rw [h10']⟩
                    exact hesc (by rw [pop_crlf (by dsimp only; omega) hdropS1])
                  · exact hesc (by rw [pop_cr_solo (by dsimp only; omega) hdropS1 h10'])
            refine ⟨by simp, by simp, fun _ => hnothead, fun _ => by simp [hasEscPair]⟩
        · by_cases hblt : b < 0x80
          · -- plain ASCII chunk [b]
            rw [pop_plain h0 hdrop hblt hb10 hb13 hb92]
            dsimp only
            have hsub : substr s.text s.pos.Offset (s.pos.Offset + 1) =
                (s.text.drop s.pos.Offset.toNat).take 1 := substr_take' 1 h0 (by omega)
            rw [hsub, hdrop]
            refine ⟨by simp, by simp [hb13], by simp [hb92], fun _ => ?_⟩
            refine ⟨by simp [Ne.symm hb13], by simp [hasEscPair]⟩
          · -- multibyte or invalid chunk, all bytes ≥ 0x80
            have hbge : 0x80 ≤ b := by omega
            rw [pop_other h0 hdrop hbge]
            dsimp only
            have hsub : substr s.text s.pos.Offset
                (s.pos.Offset + ((decodeRune (b :: r)).2 : Int)) =
                (s.text.drop s.pos.Offset.toNat).take (decodeRune (b :: r)).2 :=
              substr_take' _ h0 (by omega)
            rw [hsub, hdrop]
            have hge := decodeRune_chunk_ge b r hbge
            have hw1 : 1 ≤ (decodeRune (b :: r)).2 := decodeRune_width_pos b r
            refine ⟨take_cons_ne_nil hw1, ?_, ?_, fun _ => ?_⟩
            · intro hlast
              have := hge 13 (mem_of_getLast?_eq hlast)
              omega
            · intro hlast
              have := hge 92 (mem_of_getLast?_eq hlast)
              omega
            · constructor
              · intro hmem
                have := hge 13 hmem
                omega
              · apply hasEscPair_no92
                intro hmem
                have := hge 92 hmem
                omega

/-! ## The reachability invariant -/

theorem head?_take {l : List Nat} {k : Nat} (hk : 1 ≤ k) : (l.take k).head? = l.head? := by
  rcases l with _ | ⟨x, xs⟩
  · simp
  · cases k with
    | zero => omega
    | succ k => simp

theorem hasEscPair_append_false : ∀ (u v : List Nat), hasEscPair u = false →
    hasEscPair v = false → ¬(u.getLast? = some 92 ∧ v.head? = some 10) →
    hasEscPair (u ++ v) = false := by
  intro u
  induction u with
  | nil => intro v _ hv _; simpa using hv
  | cons a u' ih =>
    intro v hu hv hb
    rcases u' with _ | ⟨c, u''⟩
    · rcases v with _ | ⟨b, v'⟩
      · simpa using hu
      · simp only [List.cons_append, List.nil_append]
        rw [hasEscPair]
        have hab : ¬(a = 92 ∧ b = 10) := by
          intro ⟨h1, h2⟩
          exact hb ⟨by simp [h1], by simp [h2]⟩
        simp only [Bool.or_eq_false_iff, Bool.and_eq_false_iff]
        constructor
        · by_cases ha : a = 92
          · right
            simp only [beq_eq_false_iff_ne, ne_eq]
            intro hb10
            exact hab ⟨ha, hb10⟩
          · left
            simp [ha]
        · exact hv
    · simp only [List.cons_append]
      rw [hasEscPair]
      rw [hasEscPair] at hu
      simp only [Bool.or_eq_false_iff] at hu
      simp only [Bool.or_eq_false_iff]
      refine ⟨hu.1, ?_⟩
      have : (c :: u'') ++ v = c :: (u'' ++ v) := by simp
      rw [← this]
      apply ih v hu.2 hv
      intro ⟨h1, h2⟩
      exact hb ⟨by rw [← h1]; exact (getLast?_cons_ne (by simp) a).symm, h2⟩

theorem reachInv_mark (s₀ : Scanner) (h0 : 0 ≤ s₀.pos.Offset) :
    ReachInv (s₀.Mark) := by
  rw [ReachInv, Scanner.Mark]
  dsimp only
  have hsub : substr s₀.text s₀.pos.Offset s₀.pos.Offset = [] := by
    rw [substr]
    have : (s₀.pos.Offset - s₀.pos.Offset).toNat = 0 := by omega
    rw [this]
    simp
  rw [hsub]
  refine ⟨h0, le_refl _, Or.inr rfl, by simp, by simp, fun _ => by simp [hasEscPair]⟩

theorem reachInv_pop (s : Scanner) (h : ReachInv s) : ReachInv ((s.Pop).2) := by
  rcases h with ⟨hm0, hmc, hcl, ha, hb, hclean⟩
  by_cases heof : s.IsEOF = true
  · rw [Pop_of_isEOF _ heof]
    exact ⟨hm0, hmc, hcl, ha, hb, hclean⟩
  · have hne : s.IsEOF = false := by simpa using heof
    have h0 : 0 ≤ s.pos.Offset := le_trans hm0 hmc
    have hoff : s.pos.Offset < (s.text.length : Int) := by
      simp only [Scanner.IsEOF, decide_eq_false_iff_not, not_or, not_lt, not_le] at hne
      exact hne.2
    rcases pop_chunk (s.text.length) s (by omega) h0 hne with ⟨hcne, hca, hcb, hcc⟩
    rcases Pop_state s with ⟨htx, hmk⟩
    rcases Pop_mono s with ⟨hmono, _, hub⟩
    have hcur' : (s.Pop).2.pos.Offset ≤ (s.text.length : Int) := by omega
    have hsplit : substr s.text s.markedPos.Offset ((s.Pop).2.pos.Offset) =
        substr s.text s.markedPos.Offset s.pos.Offset ++
        substr s.text s.pos.Offset ((s.Pop).2.pos.Offset) :=
      substr_split hm0 hmc hmono
    rw [ReachInv, htx, hmk, hsplit]
    rw [getLast?_append_right hcne]
    refine ⟨hm0, le_trans hmc hmono, Or.inl hcur', hca, hcb, ?_⟩
    intro hflag'
    have hflag : s.isComplexSinceMark = false := by
      by_contra hcon
      simp only [Bool.not_eq_false] at hcon
      rw [Pop_flag_mono s hcon] at hflag'
      simp at hflag'
    rcases hclean hflag with ⟨hc13, hcPair⟩
    rcases hcc hflag' with ⟨hk13, hkPair⟩
    constructor
    · simp only [List.mem_append]
      rintro (hx | hx)
      · exact hc13 hx
      · exact hk13 hx
    · apply hasEscPair_append_false _ _ hcPair hkPair
      intro ⟨h92, h10⟩
      have hhead : (substr s.text s.pos.Offset ((s.Pop).2.pos.Offset)).head? =
          (s.text.drop s.pos.Offset.toNat).head? := by
        rw [substr]
        apply head?_take
        by_contra hcon
        push_neg at hcon
        have hk0 : (((s.Pop).2.pos.Offset - s.pos.Offset)).toNat = 0 := by omega
        apply hcne
        rw [substr, hk0]
        simp
      rcases hb h92 with ⟨hb10, _⟩
      rw [hhead] at h10
      exact hb10 h10

theorem reachInv_popN : ∀ (n : Nat) (s : Scanner), ReachInv s → ReachInv (popNState n s) := by
  intro n
  induction n with
  | zero => intro s h; exact h
  | succ n ih => intro s h; exact ih _ (reachInv_pop s h)

/-- C7: `Slice` returns the empty string when the mark is at/past the end of
the text, and otherwise (for in-range positions) the raw byte range from mark
to current position, normalized — CRLF→LF, then CR→LF, then deletion of
backslash-LF, in that order — exactly when the dirty flag is set and returned
raw when it is clear; and in every state reached from a `Mark` by popping
(with a nonnegative starting offset), a clear flag guarantees that the raw
substring equals what the normalizing path would produce, so the fast path
loses nothing. -/
theorem C7_slice_normalization :
    (∀ s : Scanner, (s.text.length : Int) ≤ s.markedPos.Offset → s.Slice = some []) ∧
    (∀ s : Scanner, s.markedPos.Offset < (s.text.length : Int) →
      0 ≤ s.markedPos.Offset → s.markedPos.Offset ≤ s.pos.Offset →
      s.pos.Offset ≤ (s.text.length : Int) →
      s.Slice = some (if s.isComplexSinceMark then
        normalizeSlice (substr s.text s.markedPos.Offset s.pos.Offset)
      else substr s.text s.markedPos.Offset s.pos.Offset)) ∧
    (∀ (s₀ : Scanner) (n : Nat), 0 ≤ s₀.pos.Offset →
      (popNState n (s₀.Mark)).isComplexSinceMark = false →
      normalizeSlice (substr (popNState n (s₀.Mark)).text
        (popNState n (s₀.Mark)).markedPos.Offset (popNState n (s₀.Mark)).pos.Offset) =
        substr (popNState n (s₀.Mark)).text
          (popNState n (s₀.Mark)).markedPos.Offset (popNState n (s₀.Mark)).pos.Offset ∧
      (popNState n (s₀.Mark)).Slice =
        some (substr (popNState n (s₀.Mark)).text
          (popNState n (s₀.Mark)).markedPos.Offset (popNState n (s₀.Mark)).pos.Offset)) := by
  refine ⟨?_, ?_, ?_⟩
  · intro s h
    rw [Scanner.Slice, if_pos h]
  · intro s h1 h2 h3 h4
    rw [Scanner.Slice, if_neg (by omega), if_pos ⟨h2, h3, h4⟩]
  · intro s₀ n h0 hflag
    have hInv := reachInv_popN n _ (reachInv_mark s₀ h0)
    rcases hInv with ⟨hm0, hmc, hcl, _, _, hclean⟩
    rcases hclean hflag with ⟨h13, hPair⟩
    have hid : normalizeSlice (substr (popNState n (s₀.Mark)).text
        (popNState n (s₀.Mark)).markedPos.Offset (popNState n (s₀.Mark)).pos.Offset) =
        substr (popNState n (s₀.Mark)).text
          (popNState n (s₀.Mark)).markedPos.Offset (popNState n (s₀.Mark)).pos.Offset := by
      rw [normalizeSlice]
      rw [replaceAll_id_of_not_mem (by rfl) _ _ h13]
      rw [replaceAll_id_of_not_mem (by rfl) _ _ h13]
      rw [replaceAll_escPair_id _ hPair]
    refine ⟨hid, ?_⟩
    by_cases hguard : ((popNState n (s₀.Mark)).text.length : Int) ≤
        (popNState n (s₀.Mark)).markedPos.Offset
    · rw [Scanner.Slice, if_pos hguard]
      have hsub : substr (popNState n (s₀.Mark)).text
          (popNState n (s₀.Mark)).markedPos.Offset (popNState n (s₀.Mark)).pos.Offset = [] := by
        rw [substr, List.drop_eq_nil_of_le (by omega), List.take_nil]
      rw [hsub]
    · have hcur : (popNState n (s₀.Mark)).pos.Offset ≤
          ((popNState n (s₀.Mark)).text.length : Int) := by
        rcases hcl with hle | heq
        · exact hle
        · omega
      rw [Scanner.Slice, if_neg hguard, if_pos ⟨hm0, hmc, hcur⟩]
      rw [hflag]
      simp

/-- C7 witness: the three parts at concrete inputs — a scanner marked past
the end, a dirty in-range state, and a clean reachable state. -/
theorem C7_slice_normalization_witness :
    (NewScannerAt [97, 98] { Offset := 5, Line := 1, Col := 1 }).Slice = some [] ∧
    (popNState 1 (NewScanner [97, 98])).Slice = some [97] := by
  constructor
  · exact C7_slice_normalization.1 (NewScannerAt [97, 98] { Offset := 5, Line := 1, Col := 1 })
      (by decide)
  · have h := (C7_slice_normalization.2.2 (NewScanner [97, 98]) 1 (by decide) (by decide)).2
    exact h.trans (by decide)

theorem normalizeSlice_nil : normalizeSlice [] = [] := by
  rw [normalizeSlice, replaceAll_nil, replaceAll_nil, replaceAll_nil]

theorem normalizeSlice_clean {l : List Nat} (h13 : 13 ∉ l) (hPair : hasEscPair l = false) :
    normalizeSlice l = l := by
  rw [normalizeSlice]
  rw [replaceAll_id_of_not_mem (by rfl) _ _ h13]
  rw [replaceAll_id_of_not_mem (by rfl) _ _ h13]
  rw [replaceAll_escPair_id _ hPair]

-- `SliceInc` on any state satisfying the reachability invariant: it returns
-- `Slice`'s string extended by the normalized raw extent of one pop, and it
-- returns exactly `Slice`'s string at end of input.
theorem sliceInc_extends (s : Scanner) (hInv : ReachInv s) (u : List Nat)
    (hu : s.Slice = some u) :
    (s.SliceInc).1 =
      some (u ++ normalizeSlice (substr s.text s.pos.Offset ((s.Pop).2.pos.Offset))) ∧
    (s.IsEOF = true → (s.SliceInc).1 = s.Slice) := by
  rcases hInv with ⟨hm0, hmc, hcl, hia, hib, hiclean⟩
  by_cases hguard : (s.text.length : Int) ≤ s.markedPos.Offset
  · have hueq : u = [] := by
      rw [Scanner.Slice, if_pos hguard] at hu
      exact (Option.some_inj.mp hu).symm
    have hEOF : s.IsEOF = true := by
      simp only [Scanner.IsEOF, decide_eq_true_eq]
      right; omega
    have hpop := Pop_of_isEOF s hEOF
    rw [Scanner.SliceInc, if_pos hguard]
    refine ⟨?_, fun _ => ?_⟩
    · rw [hpop]
      have hv0 : substr s.text s.pos.Offset s.pos.Offset = [] := by
        rw [substr]
        have h00 : (s.pos.Offset - s.pos.Offset).toNat = 0 := by omega
        rw [h00]; simp
      rw [hv0, normalizeSlice_nil, List.append_nil, hueq]
    · rw [Scanner.Slice, if_pos hguard]
  · push_neg at hguard
    have hcur : s.pos.Offset ≤ (s.text.length : Int) := by
      rcases hcl with h | h
      · exact h
      · omega
    have hcond : 0 ≤ s.markedPos.Offset ∧ s.markedPos.Offset ≤ s.pos.Offset ∧
        s.pos.Offset ≤ (s.text.length : Int) := ⟨hm0, hmc, hcur⟩
    have hu0 := hu
    rw [Scanner.Slice, if_neg (by omega), if_pos hcond] at hu
    dsimp only at hu
    rcases Pop_state s with ⟨htx, hmk⟩
    by_cases hEOF : s.IsEOF = true
    · have hpop := Pop_of_isEOF s hEOF
      have hv0 : substr s.text s.pos.Offset s.pos.Offset = [] := by
        rw [substr]
        have h00 : (s.pos.Offset - s.pos.Offset).toNat = 0 := by omega
        rw [h00]; simp
      rw [Scanner.SliceInc, if_neg (by omega)]
      dsimp only
      rw [hpop]
      dsimp only
      rw [if_pos hcond]
      refine ⟨?_, fun _ => ?_⟩
      · rw [hv0, normalizeSlice_nil, List.append_nil]
        exact hu
      · rw [hu0]
        exact hu
    · have hne : s.IsEOF = false := by simpa using hEOF
      have hoff : s.pos.Offset < (s.text.length : Int) := by
        simp only [Scanner.IsEOF, decide_eq_false_iff_not, not_or, not_lt, not_le] at hne
        exact hne.2
      have h0 : 0 ≤ s.pos.Offset := le_trans hm0 hmc
      rcases pop_chunk (s.text.length) s (by omega) h0 hne with ⟨hcne, hca, hcb, hcc⟩
      rcases Pop_mono s with ⟨hmono, _, hub⟩
      have hcur' : (s.Pop).2.pos.Offset ≤ (s.text.length : Int) := by omega
      have hsplit : substr s.text s.markedPos.Offset ((s.Pop).2.pos.Offset) =
          substr s.text s.markedPos.Offset s.pos.Offset ++
          substr s.text s.pos.Offset ((s.Pop).2.pos.Offset) :=
        substr_split hm0 hmc hmono
      have hhead : (substr s.text s.pos.Offset ((s.Pop).2.pos.Offset)).head? =
          (s.text.drop s.pos.Offset.toNat).head? := by
        rw [substr]
        apply head?_take
        by_contra hcon
        push_neg at hcon
        have hk0 : (((s.Pop).2.pos.Offset - s.pos.Offset)).toNat = 0 := by omega
        apply hcne
        rw [substr, hk0]
        simp
      have hnormsplit : normalizeSlice (substr s.text s.markedPos.Offset ((s.Pop).2.pos.Offset)) =
          normalizeSlice (substr s.text s.markedPos.Offset s.pos.Offset) ++
          normalizeSlice (substr s.text s.pos.Offset ((s.Pop).2.pos.Offset)) := by
        rw [hsplit]
        apply normalizeSlice_append
        · intro ⟨h13, h10⟩
          rw [hhead] at h10
          exact hia h13 h10
        · intro h92
          rcases hib h92 with ⟨h10, h13⟩
          rw [hhead]
          exact ⟨h10, h13⟩
      have hcond2 : 0 ≤ s.markedPos.Offset ∧ s.markedPos.Offset ≤ (s.Pop).2.pos.Offset ∧
          (s.Pop).2.pos.Offset ≤ (s.text.length : Int) := ⟨hm0, le_trans hmc hmono, hcur'⟩
      rw [Scanner.SliceInc, if_neg (by omega)]
      dsimp only
      rw [htx, hmk]
      rw [if_pos hcond2]
      refine ⟨?_, fun hc => by rw [hc] at hne; simp at hne⟩
      by_cases hflag' : (s.Pop).2.isComplexSinceMark = true
      · rw [if_pos hflag']
        rw [hnormsplit]
        by_cases hflag : s.isComplexSinceMark = true
        · rw [if_pos hflag] at hu
          rw [Option.some_inj] at hu
          rw [hu]
        · have hflagf : s.isComplexSinceMark = false := by simpa using hflag
          rw [if_neg hflag] at hu
          rw [Option.some_inj] at hu
          rcases hiclean hflagf with ⟨h13, hPair⟩
          rw [normalizeSlice_clean h13 hPair, hu]
      · have hflagf' : (s.Pop).2.isComplexSinceMark = false := by simpa using hflag'
        have hflagf : s.isComplexSinceMark = false := by
          by_contra hcon
          simp only [Bool.not_eq_false] at hcon
          rw [Pop_flag_mono s hcon] at hflagf'
          simp at hflagf'
        rcases hcc hflagf' with ⟨hk13, hkPair⟩
        rw [if_neg hflag']
        rw [if_neg (by rw [hflagf]; simp)] at hu
        rw [Option.some_inj] at hu
        rw [hsplit, normalizeSlice_clean hk13 hkPair, hu]

/-- C8 (amended): on every scanner state reachable by a `Mark` (at a
nonnegative offset) followed by any number of `Pop`s, if `Slice` returns a
string then `SliceInc` returns that string extended by the raw byte extent
one further `Pop` would consume, normalized; and at end of input `SliceInc`
returns exactly `Slice`'s string.  (The converse of the last part fails:
`SliceInc` can equal `Slice` away from end of input, see the counterexample;
and for unreachable states installed via `SetPos` even the prefix relation
fails, because `SliceInc`'s internal pop can flip the dirty flag and
normalize a range `Slice` returned raw.) -/
theorem C8_sliceinc_extends_slice (s₀ : Scanner) (h0 : 0 ≤ s₀.pos.Offset) (n : Nat)
    (u : List Nat) (hu : (popNState n (s₀.Mark)).Slice = some u) :
    ((popNState n (s₀.Mark)).SliceInc).1 =
      some (u ++ normalizeSlice (substr (popNState n (s₀.Mark)).text
        (popNState n (s₀.Mark)).pos.Offset (((popNState n (s₀.Mark)).Pop).2.pos.Offset))) ∧
    ((popNState n (s₀.Mark)).IsEOF = true →
      ((popNState n (s₀.Mark)).SliceInc).1 = (popNState n (s₀.Mark)).Slice) :=
  sliceInc_extends _ (reachInv_popN n _ (reachInv_mark s₀ h0)) u hu

/-- Witness for the amended C8 on text `"a\rb"` after two pops (the second
pop consumed the CR and set the dirty flag): `Slice` is the normalized
`"a\n"` and `SliceInc` extends it by the normalized extent of the next pop,
the byte `'b'`. -/
theorem C8_sliceinc_extends_slice_witness :
    ((popNState 2 ((NewScanner [97, 13, 98]).Mark)).SliceInc).1 =
      some ([97, 10] ++ normalizeSlice (substr (popNState 2 ((NewScanner [97, 13, 98]).Mark)).text
        (popNState 2 ((NewScanner [97, 13, 98]).Mark)).pos.Offset
        (((popNState 2 ((NewScanner [97, 13, 98]).Mark)).Pop).2.pos.Offset))) ∧
    ((popNState 2 ((NewScanner [97, 13, 98]).Mark)).IsEOF = true →
      ((popNState 2 ((NewScanner [97, 13, 98]).Mark)).SliceInc).1 =
        (popNState 2 ((NewScanner [97, 13, 98]).Mark)).Slice) :=
  C8_sliceinc_extends_slice (NewScanner [97, 13, 98]) (by decide) 2 [97, 10] (by decide)

/-! ## UTF-8 validity: preservation and the decode/encode roundtrip -/

theorem utf8Valid_cons_ascii {c : Nat} (tl : List Nat) (h : c < 0x80) :
    utf8Valid (c :: tl) = utf8Valid tl := by
  simp only [utf8Valid]
  rw [if_pos h]

theorem hasDoubleBackslash_tail {a : Nat} {tl : List Nat}
    (h : hasDoubleBackslash (a :: tl) = false) : hasDoubleBackslash tl = false := by
  rcases tl with _ | ⟨b, tl2⟩
  · rfl
  · simp only [hasDoubleBackslash, Bool.or_eq_false_iff] at h
    exact h.2

theorem hasDoubleBackslash_drop : ∀ (k : Nat) (l : List Nat),
    hasDoubleBackslash l = false → hasDoubleBackslash (l.drop k) = false := by
  intro k
  induction k with
  | zero => intro l h; simpa using h
  | succ k ih =>
    intro l h
    rcases l with _ | ⟨a, tl⟩
    · simpa using h
    · rw [List.drop_succ_cons]
      exact ih tl (hasDoubleBackslash_tail h)

theorem encodeRune_small (b : Nat) (h : b < 0x80) : encodeRune ((b : Nat) : Int) = [b] := by
  rw [encodeRune, if_neg (by omega)]
  have hn : ((b : Nat) : Int).toNat = b := by omega
  dsimp only
  rw [hn, if_pos h]

theorem encodeRune_two (b b1 : Nat) (hb : 0xC2 ≤ b) (hb' : b ≤ 0xDF)
    (h1 : 0x80 ≤ b1) (h1' : b1 ≤ 0xBF) :
    encodeRune (((b % 0x20) * 0x40 + b1 % 0x40 : Nat) : Int) = [b, b1] := by
  rw [encodeRune, if_neg (by omega)]
  have hn : (((b % 0x20) * 0x40 + b1 % 0x40 : Nat) : Int).toNat
      = (b % 0x20) * 0x40 + b1 % 0x40 := by omega
  dsimp only
  rw [hn, if_neg (by omega), if_pos (by omega)]
  simp only [List.cons.injEq, and_true]
  exact ⟨by omega, by omega⟩

theorem encodeRune_three (b b1 b2 : Nat) (hb : 0xE0 ≤ b) (hb' : b ≤ 0xEF)
    (h1 : 0x80 ≤ b1) (h1' : b1 ≤ 0xBF) (h2 : 0x80 ≤ b2) (h2' : b2 ≤ 0xBF)
    (hlow : 0x800 ≤ (b % 0x10) * 0x1000 + (b1 % 0x40) * 0x40 + b2 % 0x40)
    (hsur : ¬(0xD800 ≤ (b % 0x10) * 0x1000 + (b1 % 0x40) * 0x40 + b2 % 0x40 ∧
        (b % 0x10) * 0x1000 + (b1 % 0x40) * 0x40 + b2 % 0x40 ≤ 0xDFFF)) :
    encodeRune (((b % 0x10) * 0x1000 + (b1 % 0x40) * 0x40 + b2 % 0x40 : Nat) : Int)
      = [b, b1, b2] := by
  rw [encodeRune, if_neg (by omega)]
  have hn : (((b % 0x10) * 0x1000 + (b1 % 0x40) * 0x40 + b2 % 0x40 : Nat) : Int).toNat
      = (b % 0x10) * 0x1000 + (b1 % 0x40) * 0x40 + b2 % 0x40 := by omega
  dsimp only
  rw [hn, if_neg (by omega), if_neg (by omega), if_pos (by omega)]
  simp only [List.cons.injEq, and_true]
  exact ⟨by omega, by omega, by omega⟩

theorem encodeRune_four (b b1 b2 b3 : Nat) (hb : 0xF0 ≤ b) (hb' : b ≤ 0xF4)
    (h1 : 0x80 ≤ b1) (h1' : b1 ≤ 0xBF) (h2 : 0x80 ≤ b2) (h2' : b2 ≤ 0xBF)
    (h3 : 0x80 ≤ b3) (h3' : b3 ≤ 0xBF)
    (hlow : 0x10000 ≤ (b % 0x08) * 0x40000 + (b1 % 0x40) * 0x1000 + (b2 % 0x40) * 0x40 + b3 % 0x40)
    (hhigh : (b % 0x08) * 0x40000 + (b1 % 0x40) * 0x1000 + (b2 % 0x40) * 0x40 + b3 % 0x40
        ≤ 0x10FFFF) :
    encodeRune (((b % 0x08) * 0x40000 + (b1 % 0x40) * 0x1000 + (b2 % 0x40) * 0x40 + b3 % 0x40
        : Nat) : Int) = [b, b1, b2, b3] := by
  rw [encodeRune, if_neg (by omega)]
  have hn : (((b % 0x08) * 0x40000 + (b1 % 0x40) * 0x1000 + (b2 % 0x40) * 0x40 + b3 % 0x40
      : Nat) : Int).toNat
      = (b % 0x08) * 0x40000 + (b1 % 0x40) * 0x1000 + (b2 % 0x40) * 0x40 + b3 % 0x40 := by
    omega
  dsimp only
  rw [hn, if_neg (by omega), if_neg (by omega), if_neg (by omega)]
  simp only [List.cons.injEq, and_true]
  exact ⟨by omega, by omega, by omega, by omega⟩

-- On valid UTF-8 input headed by a byte ≥ 0x80, re-encoding the decoded rune
-- reproduces exactly the consumed bytes, and the remainder is again valid.
theorem utf8Valid_decode (b : Nat) (r : List Nat) (hb : 0x80 ≤ b)
    (hv : utf8Valid (b :: r) = true) :
    encodeRune (decodeRune (b :: r)).1 = (b :: r).take (decodeRune (b :: r)).2 ∧
    utf8Valid ((b :: r).drop (decodeRune (b :: r)).2) = true := by
  have hnb : ¬ b < 0x80 := by omega
  simp only [utf8Valid] at hv
  rw [if_neg hnb] at hv
  rcases h8 : utf8Info b with _ | ⟨sz, lo, hi⟩
  · rw [h8] at hv
    simp at hv
  · rw [h8] at hv
    rcases utf8Info_eq_some h8 with ⟨hbb, hsz, hlo, hhi⟩ | ⟨hbb, hsz, hlo, hhi⟩ |
      ⟨hbb, hsz, hlo, hhi⟩ | ⟨hbb, hsz, hlo, hhi⟩ | ⟨hbb, hsz, hlo, hhi⟩ |
      ⟨hbb, hsz, hlo, hhi⟩ | ⟨hbb, hsz, hlo, hhi⟩ | ⟨hbb, hsz, hlo, hhi⟩
    -- two-byte sequences: C2..DF
    · subst hsz; subst hlo; subst hhi
      rcases r with _ | ⟨b1, tl2⟩
      · simp at hv
      · simp only [Bool.and_eq_true, decide_eq_true_eq] at hv
        obtain ⟨⟨h1a, h1b⟩, hvtl⟩ := hv
        have hdec : decodeRune (b :: b1 :: tl2) =
            ((((b % 0x20) * 0x40 + b1 % 0x40 : Nat) : Int), 2) := by
          simp only [decodeRune]
          rw [if_neg hnb, h8]
          dsimp only
          rw [if_neg (by omega), if_pos rfl]
        rw [hdec]
        refine ⟨?_, hvtl⟩
        rw [encodeRune_two b b1 hbb.1 hbb.2 h1a h1b]
        rfl
    -- three-byte sequences: E0
    · subst hsz; subst hlo; subst hhi; subst hbb
      rcases r with _ | ⟨b1, r2⟩
      · simp at hv
      · rcases r2 with _ | ⟨b2, tl3⟩
        · simp at hv
        · simp only [Bool.and_eq_true, decide_eq_true_eq] at hv
          obtain ⟨⟨⟨h1a, h1b⟩, h2a, h2b⟩, hvtl⟩ := hv
          have hdec : decodeRune (0xE0 :: b1 :: b2 :: tl3) =
              ((((0xE0 % 0x10) * 0x1000 + (b1 % 0x40) * 0x40 + b2 % 0x40 : Nat) : Int), 3) := by
            simp only [decodeRune]
            rw [if_neg hnb, h8]
            dsimp only
            rw [if_neg (by omega), if_neg (by omega), if_neg (by omega), if_pos rfl]
          rw [hdec]
          refine ⟨?_, hvtl⟩
          rw [encodeRune_three 0xE0 b1 b2 (by omega) (by omega) (by omega) (by omega)
            h2a h2b (by omega) (by omega)]
          rfl
    -- three-byte sequences: E1..EC
    · subst hsz; subst hlo; subst hhi
      rcases r with _ | ⟨b1, r2⟩
      · simp at hv
      · rcases r2 with _ | ⟨b2, tl3⟩
        · simp at hv
        · simp only [Bool.and_eq_true, decide_eq_true_eq] at hv
          obtain ⟨⟨⟨h1a, h1b⟩, h2a, h2b⟩, hvtl⟩ := hv
          have hdec : decodeRune (b :: b1 :: b2 :: tl3) =
              ((((b % 0x10) * 0x1000 + (b1 % 0x40) * 0x40 + b2 % 0x40 : Nat) : Int), 3) := by
            simp only [decodeRune]
            rw [if_neg hnb, h8]
            dsimp only
            rw [if_neg (by omega), if_neg (by omega), if_neg (by omega), if_pos rfl]
          rw [hdec]
          refine ⟨?_, hvtl⟩
          rw [encodeRune_three b b1 b2 (by omega) (by omega) h1a h1b h2a h2b
            (by omega) (by omega)]
          rfl
    -- three-byte sequences: ED (second byte capped below the surrogates)
    · subst hsz; subst hlo; subst hhi; subst hbb
      rcases r with _ | ⟨b1, r2⟩
      · simp at hv
      · rcases r2 with _ | ⟨b2, tl3⟩
        · simp at hv
        · simp only [Bool.and_eq_true, decide_eq_true_eq] at hv
          obtain ⟨⟨⟨h1a, h1b⟩, h2a, h2b⟩, hvtl⟩ := hv
          have hdec : decodeRune (0xED :: b1 :: b2 :: tl3) =
              ((((0xED % 0x10) * 0x1000 + (b1 % 0x40) * 0x40 + b2 % 0x40 : Nat) : Int), 3) := by
            simp only [decodeRune]
            rw [if_neg hnb, h8]
            dsimp only
            rw [if_neg (by omega), if_neg (by omega), if_neg (by omega), if_pos rfl]
          rw [hdec]
          refine ⟨?_, hvtl⟩
          rw [encodeRune_three 0xED b1 b2 (by omega) (by omega) h1a (by omega) h2a h2b
            (by omega) (by omega)]
          rfl
    -- three-byte sequences: EE..EF
    · subst hsz; subst hlo; subst hhi
      rcases r with _ | ⟨b1, r2⟩
      · simp at hv
      · rcases r2 with _ | ⟨b2, tl3⟩
        · simp at hv
        · simp only [Bool.and_eq_true, decide_eq_true_eq] at hv
          obtain ⟨⟨⟨h1a, h1b⟩, h2a, h2b⟩, hvtl⟩ := hv
          have hdec : decodeRune (b :: b1 :: b2 :: tl3) =
              ((((b % 0x10) * 0x1000 + (b1 % 0x40) * 0x40 + b2 % 0x40 : Nat) : Int), 3) := by
            simp only [decodeRune]
            rw [if_neg hnb, h8]
            dsimp only
            rw [if_neg (by omega), if_neg (by omega), if_neg (by omega), if_pos rfl]
          rw [hdec]
          refine ⟨?_, hvtl⟩
          rw [encodeRune_three b b1 b2 (by omega) (by omega) h1a h1b h2a h2b
            (by omega) (by omega)]
          rfl
    -- four-byte sequences: F0
    · subst hsz; subst hlo; subst hhi; subst hbb
      rcases r with _ | ⟨b1, r2⟩
      · simp at hv
      · rcases r2 with _ | ⟨b2, r3⟩
        · simp at hv
        · rcases r3 with _ | ⟨b3, tl4⟩
          · simp at hv
          · simp only [Bool.and_eq_true, decide_eq_true_eq] at hv
            obtain ⟨⟨⟨⟨h1a, h1b⟩, h2a, h2b⟩, h3a, h3b⟩, hvtl⟩ := hv
            have hdec : decodeRune (0xF0 :: b1 :: b2 :: b3 :: tl4) =
                ((((0xF0 % 0x08) * 0x40000 + (b1 % 0x40) * 0x1000 + (b2 % 0x40) * 0x40
                    + b3 % 0x40 : Nat) : Int), 4) := by
              simp only [decodeRune]
              rw [if_neg hnb, h8]
              dsimp only
              rw [if_neg (by omega), if_neg (by omega), if_neg (by omega), if_neg (by omega),
                if_neg (by omega)]
            rw [hdec]
            refine ⟨?_, hvtl⟩
            rw [encodeRune_four 0xF0 b1 b2 b3 (by omega) (by omega) (by omega) (by omega)
              h2a h2b h3a h3b (by omega) (by omega)]
            rfl
    -- four-byte sequences: F1..F3
    · subst hsz; subst hlo; subst hhi
      rcases r with _ | ⟨b1, r2⟩
      · simp at hv
      · rcases r2 with _ | ⟨b2, r3⟩
        · simp at hv
        · rcases r3 with _ | ⟨b3, tl4⟩
          · simp at hv
          · simp only [Bool.and_eq_true, decide_eq_true_eq] at hv
            obtain ⟨⟨⟨⟨h1a, h1b⟩, h2a, h2b⟩, h3a, h3b⟩, hvtl⟩ := hv
            have hdec : decodeRune (b :: b1 :: b2 :: b3 :: tl4) =
                ((((b % 0x08) * 0x40000 + (b1 % 0x40) * 0x1000 + (b2 % 0x40) * 0x40
                    + b3 % 0x40 : Nat) : Int), 4) := by
              simp only [decodeRune]
              rw [if_neg hnb, h8]
              dsimp only
              rw [if_neg (by omega), if_neg (by omega), if_neg (by omega), if_neg (by omega),
                if_neg (by omega)]
            rw [hdec]
            refine ⟨?_, hvtl⟩
            rw [encodeRune_four b b1 b2 b3 (by omega) (by omega) h1a h1b h2a h2b h3a h3b
              (by omega) (by omega)]
            rfl
    -- four-byte sequences: F4 (second byte capped at 8F)
    · subst hsz; subst hlo; subst hhi; subst hbb
      rcases r with _ | ⟨b1, r2⟩
      · simp at hv
      · rcases r2 with _ | ⟨b2, r3⟩
        · simp at hv
        · rcases r3 with _ | ⟨b3, tl4⟩
          · simp at hv
          · simp only [Bool.and_eq_true, decide_eq_true_eq] at hv
            obtain ⟨⟨⟨⟨h1a, h1b⟩, h2a, h2b⟩, h3a, h3b⟩, hvtl⟩ := hv
            have hdec : decodeRune (0xF4 :: b1 :: b2 :: b3 :: tl4) =
                ((((0xF4 % 0x08) * 0x40000 + (b1 % 0x40) * 0x1000 + (b2 % 0x40) * 0x40
                    + b3 % 0x40 : Nat) : Int), 4) := by
              simp only [decodeRune]
              rw [if_neg hnb, h8]
              dsimp only
              rw [if_neg (by omega), if_neg (by omega), if_neg (by omega), if_neg (by omega),
                if_neg (by omega)]
            rw [hdec]
            refine ⟨?_, hvtl⟩
            rw [encodeRune_four 0xF4 b1 b2 b3 (by omega) (by omega) h1a (by omega)
              h2a h2b h3a h3b (by omega) (by omega)]
            rfl

-- One pop on valid UTF-8 input with no two consecutive backslashes: the
-- normalized raw extent of the pop is exactly the UTF-8 encoding of the
-- returned rune (empty when the pop produced the sentinel by consuming a
-- trailing chain of escaped breaks), and the remaining input is again valid.
theorem pop_chunk_norm (n : Nat) : ∀ s : Scanner,
    s.text.length - s.pos.Offset.toNat ≤ n →
    0 ≤ s.pos.Offset → s.IsEOF = false →
    utf8Valid (s.text.drop s.pos.Offset.toNat) = true →
    hasDoubleBackslash (s.text.drop s.pos.Offset.toNat) = false →
    ((s.Pop).1 = EOF →
        normalizeSlice (substr s.text s.pos.Offset ((s.Pop).2.pos.Offset)) = []) ∧
    ((s.Pop).1 ≠ EOF →
        normalizeSlice (substr s.text s.pos.Offset ((s.Pop).2.pos.Offset)) =
          encodeRune (s.Pop).1) ∧
    utf8Valid (s.text.drop ((s.Pop).2.pos.Offset).toNat) = true := by
  induction n with
  | zero =>
    intro s hn h0 hne _ _
    simp only [Scanner.IsEOF, decide_eq_false_iff_not, not_or, not_lt, not_le] at hne
    omega
  | succ n ih =>
    intro s hn h0 hne hval hdb
    have hoff : 0 ≤ s.pos.Offset ∧ s.pos.Offset < (s.text.length : Int) := by
      simp only [Scanner.IsEOF, decide_eq_false_iff_not, not_or, not_lt, not_le] at hne
      omega
    obtain ⟨b, r, hdrop⟩ : ∃ b r, s.text.drop s.pos.Offset.toNat = b :: r := by
      rcases hd : s.text.drop s.pos.Offset.toNat with _ | ⟨b, r⟩
      · have := congrArg List.length hd
        simp only [List.length_drop, List.length_nil] at this
        omega
      · exact ⟨b, r, rfl⟩
    have hdrop1 : s.text.drop (s.pos.Offset.toNat + 1) = r := by
      have := drop_shift hdrop 1
      simpa using this
    have hto1 : (s.pos.Offset + (1 : Int)).toNat = s.pos.Offset.toNat + 1 := by omega
    rw [hdrop] at hval hdb
    by_cases hb10 : b = 10
    · -- LF chunk [10]
      subst hb10
      rw [pop_lf h0 hdrop]
      dsimp only
      have hsub : substr s.text s.pos.Offset (s.pos.Offset + 1) =
          (s.text.drop s.pos.Offset.toNat).take 1 := substr_take' 1 h0 (by omega)
      rw [hsub, hdrop, hto1, hdrop1]
      refine ⟨fun h => absurd h (by decide), fun _ => ?_, ?_⟩
      · exact (by decide : normalizeSlice [10] = encodeRune 10)
      · rw [utf8Valid_cons_ascii _ (by omega)] at hval
        exact hval
    · by_cases hb13 : b = 13
      · subst hb13
        by_cases h10 : r.head? = some 10
        · -- CRLF chunk [13, 10]
          obtain ⟨r', rfl⟩ : ∃ r', r = 10 :: r' := by
            rcases r with _ | ⟨d, r'⟩
            · simp at h10
            · simp only [List.head?_cons, Option.some.injEq] at h10
              exact ⟨r', by rw [h10]⟩
          rw [pop_crlf h0 hdrop]
          dsimp only
          have hsub : substr s.text s.pos.Offset (s.pos.Offset + 2) =
              (s.text.drop s.pos.Offset.toNat).take 2 := substr_take' 2 h0 (by omega)
          have hto2 : (s.pos.Offset + (2 : Int)).toNat = s.pos.Offset.toNat + 2 := by omega
          have hdrop2 : s.text.drop (s.pos.Offset.toNat + 2) = r' := by
            have := drop_shift hdrop 2
            simpa using this
          rw [hsub, hdrop, hto2, hdrop2]
          refine ⟨fun h => absurd h (by decide), fun _ => ?_, ?_⟩
          · exact (by decide : normalizeSlice [13, 10] = encodeRune 10)
          · rw [utf8Valid_cons_ascii _ (by omega), utf8Valid_cons_ascii _ (by omega)] at hval
            exact hval
        · -- lone CR chunk [13]
          rw [pop_cr_solo h0 hdrop h10]
          dsimp only
          have hsub : substr s.text s.pos.Offset (s.pos.Offset + 1) =
              (s.text.drop s.pos.Offset.toNat).take 1 := substr_take' 1 h0 (by omega)
          rw [hsub, hdrop, hto1, hdrop1]
          refine ⟨fun h => absurd h (by decide), fun _ => ?_, ?_⟩
          · exact (by decide : normalizeSlice [13] = encodeRune 10)
          · rw [utf8Valid_cons_ascii _ (by omega)] at hval
            exact hval
      · by_cases hb92 : b = 92
        · subst hb92
          rcases r with _ | ⟨d, r2⟩
          · -- trailing backslash: the lookahead pop is at end of input
            have hlen := (drop_len_pos hdrop h0).2
            simp only [List.length_nil] at hlen
            have heof1 : Scanner.IsEOF { pos := { Offset := s.pos.Offset + 1, Line := s.pos.Line, Col := s.pos.Col + 1 }, text := s.text, markedPos := s.markedPos, isComplexSinceMark := s.isComplexSinceMark } = true := by
              simp only [Scanner.IsEOF, decide_eq_true_eq]
              right
              dsimp only
              omega
            have hlit : (Scanner.Pop { pos := { Offset := s.pos.Offset + 1, Line := s.pos.Line, Col := s.pos.Col + 1 }, text := s.text, markedPos := s.markedPos, isComplexSinceMark := s.isComplexSinceMark }).1 ≠ 10 := by
              rw [Pop_of_isEOF _ heof1]
              show EOF ≠ 10
              decide
            rw [pop_backslash_lit h0 hdrop hlit]
            dsimp only
            have hsub : substr s.text s.pos.Offset (s.pos.Offset + 1) =
                (s.text.drop s.pos.Offset.toNat).take 1 := substr_take' 1 h0 (by omega)
            rw [hsub, hdrop, hto1, hdrop1]
            exact ⟨fun h => absurd h (by decide),
              fun _ => (by decide : normalizeSlice [92] = encodeRune 92), by decide⟩
          · by_cases hd92 : d = 92
            · exfalso
              subst hd92
              simp only [hasDoubleBackslash] at hdb
              simp at hdb
            · have hdropS1 : (({ pos := { Offset := s.pos.Offset + 1, Line := s.pos.Line, Col := s.pos.Col + 1 }, text := s.text, markedPos := s.markedPos, isComplexSinceMark := s.isComplexSinceMark } : Scanner).text).drop (({ pos := { Offset := s.pos.Offset + 1, Line := s.pos.Line, Col := s.pos.Col + 1 }, text := s.text, markedPos := s.markedPos, isComplexSinceMark := s.isComplexSinceMark } : Scanner).pos.Offset).toNat = d :: r2 := by
                dsimp only
                rw [hto1, hdrop1]
              have h0S1 : (0 : Int) ≤ ({ pos := { Offset := s.pos.Offset + 1, Line := s.pos.Line, Col := s.pos.Col + 1 }, text := s.text, markedPos := s.markedPos, isComplexSinceMark := s.isComplexSinceMark } : Scanner).pos.Offset := by
                dsimp only
                omega
              by_cases hd10 : d = 10
              · -- escaped LF: prefix [92, 10], then the chained pop
                subst hd10
                have hinner := pop_lf h0S1 hdropS1
                have hesc : (Scanner.Pop { pos := { Offset := s.pos.Offset + 1, Line := s.pos.Line, Col := s.pos.Col + 1 }, text := s.text, markedPos := s.markedPos, isComplexSinceMark := s.isComplexSinceMark }).1 = 10 := by
                  rw [hinner]
                rw [pop_backslash_esc h0 hdrop hesc, hinner]
                dsimp only
                have hto2 : (s.pos.Offset + 1 + (1 : Int)).toNat = s.pos.Offset.toNat + 2 := by omega
                have hdropk : s.text.drop (s.pos.Offset.toNat + 2) = r2 := by
                  have := drop_shift hdrop 2
                  simpa using this
                by_cases heof3 : Scanner.IsEOF { pos := { Offset := s.pos.Offset + 1 + 1, Line := s.pos.Line + 1, Col := 1 }, text := s.text, markedPos := s.markedPos, isComplexSinceMark := true } = true
                · rw [Pop_of_isEOF _ heof3]
                  try dsimp only
                  simp only [Scanner.IsEOF, decide_eq_true_eq] at heof3
                  try dsimp only at heof3
                  have hsub : substr s.text s.pos.Offset (s.pos.Offset + 1 + 1) =
                      (s.text.drop s.pos.Offset.toNat).take 2 := substr_take' 2 h0 (by omega)
                  have hdropN : s.text.drop ((s.pos.Offset + 1 + 1).toNat) = [] := by
                    apply List.drop_eq_nil_of_le
                    simp only [List.length_drop] at hdropk ⊢
                    omega
                  rw [hsub, hdrop, hdropN]
                  exact ⟨fun _ => (by decide : normalizeSlice [92, 10] = []),
                    fun h => absurd rfl h, by decide⟩
                · have heof3' : Scanner.IsEOF { pos := { Offset := s.pos.Offset + 1 + 1, Line := s.pos.Line + 1, Col := 1 }, text := s.text, markedPos := s.markedPos, isComplexSinceMark := true } = false := by
                    simp only [Bool.not_eq_true] at heof3
                    exact heof3
                  obtain ⟨hE, hNE, hVal⟩ := ih { pos := { Offset := s.pos.Offset + 1 + 1, Line := s.pos.Line + 1, Col := 1 }, text := s.text, markedPos := s.markedPos, isComplexSinceMark := true }
                    (by dsimp only; omega)
                    (by dsimp only; omega)
                    heof3'
                    (by dsimp only
                        rw [show (s.pos.Offset + 1 + 1).toNat = s.pos.Offset.toNat + 2 by omega, hdropk]
                        rw [utf8Valid_cons_ascii _ (by omega), utf8Valid_cons_ascii _ (by omega)] at hval
                        exact hval)
                    (by dsimp only
                        rw [show (s.pos.Offset + 1 + 1).toNat = s.pos.Offset.toNat + 2 by omega, hdropk]
                        exact hasDoubleBackslash_drop 2 _ hdb)
                  dsimp only at hE hNE hVal
                  have hmono3 := (Pop_mono ({ pos := { Offset := s.pos.Offset + 1 + 1, Line := s.pos.Line + 1, Col := 1 }, text := s.text, markedPos := s.markedPos, isComplexSinceMark := true } : Scanner)).1
                  dsimp only at hmono3
                  have hpre : substr s.text s.pos.Offset (s.pos.Offset + 1 + 1) = [92, 10] := by
                    have h' : substr s.text s.pos.Offset (s.pos.Offset + 1 + 1) =
                        (s.text.drop s.pos.Offset.toNat).take 2 := substr_take' 2 h0 (by omega)
                    rw [h', hdrop]
                    rfl
                  rw [substr_split h0 (by omega) hmono3, hpre]
                  rw [normalizeSlice_append [92, 10] _
                    (by rintro ⟨h, -⟩; exact absurd h (by decide))
                    (fun h => absurd h (by decide))]
                  rw [(by decide : normalizeSlice [92, 10] = ([] : List Nat)), List.nil_append]
                  exact ⟨hE, hNE, hVal⟩
              · by_cases hd13 : d = 13
                · subst hd13
                  by_cases h10' : r2.head? = some 10
                  · -- escaped CRLF: prefix [92, 13, 10]
                    obtain ⟨r3, rfl⟩ : ∃ r3, r2 = 10 :: r3 := by
                      rcases r2 with _ | ⟨e, r3⟩
                      · simp at h10'
                      · simp only [List.head?_cons, Option.some.injEq] at h10'
                        exact ⟨r3, by rw [h10']⟩
                    have hinner := pop_crlf h0S1 hdropS1
                    have hesc : (Scanner.Pop { pos := { Offset := s.pos.Offset + 1, Line := s.pos.Line, Col := s.pos.Col + 1 }, text := s.text, markedPos := s.markedPos, isComplexSinceMark := s.isComplexSinceMark }).1 = 10 := by
                      rw [hinner]
                    rw [pop_backslash_esc h0 hdrop hesc, hinner]
                    dsimp only
                    have hdropk : s.text.drop (s.pos.Offset.toNat + 3) = r3 := by
                      have := drop_shift hdrop 3
                      simpa using this
                    by_cases heof3 : Scanner.IsEOF { pos := { Offset := s.pos.Offset + 1 + 2, Line := s.pos.Line + 1, Col := 1 }, text := s.text, markedPos := s.markedPos, isComplexSinceMark := true } = true
                    · rw [Pop_of_isEOF _ heof3]
                      try dsimp only
                      simp only [Scanner.IsEOF, decide_eq_true_eq] at heof3
                      try dsimp only at heof3
                      have hsub : substr s.text s.pos.Offset (s.pos.Offset + 1 + 2) =
                          (s.text.drop s.pos.Offset.toNat).take 3 := substr_take' 3 h0 (by omega)
                      have hdropN : s.text.drop ((s.pos.Offset + 1 + 2).toNat) = [] := by
                        apply List.drop_eq_nil_of_le
                        omega
                      rw [hsub, hdrop, hdropN]
                      exact ⟨fun _ => (by decide : normalizeSlice [92, 13, 10] = []),
                        fun h => absurd rfl h, by decide⟩
                    · have heof3' : Scanner.IsEOF { pos := { Offset := s.pos.Offset + 1 + 2, Line := s.pos.Line + 1, Col := 1 }, text := s.text, markedPos := s.markedPos, isComplexSinceMark := true } = false := by
                        simp only [Bool.not_eq_true] at heof3
                        exact heof3
                      obtain ⟨hE, hNE, hVal⟩ := ih { pos := { Offset := s.pos.Offset + 1 + 2, Line := s.pos.Line + 1, Col := 1 }, text := s.text, markedPos := s.markedPos, isComplexSinceMark := true }
                        (by dsimp only; omega)
                        (by dsimp only; omega)
                        heof3'
                        (by dsimp only
                            rw [show (s.pos.Offset + 1 + 2).toNat = s.pos.Offset.toNat + 3 by omega, hdropk]
                            rw [utf8Valid_cons_ascii _ (by omega), utf8Valid_cons_ascii _ (by omega),
                              utf8Valid_cons_ascii _ (by omega)] at hval
                            exact hval)
                        (by dsimp only
                            rw [show (s.pos.Offset + 1 + 2).toNat = s.pos.Offset.toNat + 3 by omega, hdropk]
                            exact hasDoubleBackslash_drop 3 _ hdb)
                      dsimp only at hE hNE hVal
                      have hmono3 := (Pop_mono ({ pos := { Offset := s.pos.Offset + 1 + 2, Line := s.pos.Line + 1, Col := 1 }, text := s.text, markedPos := s.markedPos, isComplexSinceMark := true } : Scanner)).1
                      dsimp only at hmono3
                      have hpre : substr s.text s.pos.Offset (s.pos.Offset + 1 + 2) = [92, 13, 10] := by
                        have h' : substr s.text s.pos.Offset (s.pos.Offset + 1 + 2) =
                            (s.text.drop s.pos.Offset.toNat).take 3 := substr_take' 3 h0 (by omega)
                        rw [h', hdrop]
                        rfl
                      rw [substr_split h0 (by omega) hmono3, hpre]
                      rw [normalizeSlice_append [92, 13, 10] _
                        (by rintro ⟨h, -⟩; exact absurd h (by decide))
                        (fun h => absurd h (by decide))]
                      rw [(by decide : normalizeSlice [92, 13, 10] = ([] : List Nat)), List.nil_append]
                      exact ⟨hE, hNE, hVal⟩
                  · -- escaped lone CR: prefix [92, 13], next byte is not LF
                    have hinner := pop_cr_solo h0S1 hdropS1 h10'
                    have hesc : (Scanner.Pop { pos := { Offset := s.pos.Offset + 1, Line := s.pos.Line, Col := s.pos.Col + 1 }, text := s.text, markedPos := s.markedPos, isComplexSinceMark := s.isComplexSinceMark }).1 = 10 := by
                      rw [hinner]
                    rw [pop_backslash_esc h0 hdrop hesc, hinner]
                    dsimp only
                    have hto2 : (s.pos.Offset + 1 + (1 : Int)).toNat = s.pos.Offset.toNat + 2 := by omega
                    have hdropk : s.text.drop (s.pos.Offset.toNat + 2) = r2 := by
                      have := drop_shift hdrop 2
                      simpa using this
                    by_cases heof3 : Scanner.IsEOF { pos := { Offset := s.pos.Offset + 1 + 1, Line := s.pos.Line + 1, Col := 1 }, text := s.text, markedPos := s.markedPos, isComplexSinceMark := true } = true
                    · rw [Pop_of_isEOF _ heof3]
                      try dsimp only
                      simp only [Scanner.IsEOF, decide_eq_true_eq] at heof3
                      try dsimp only at heof3
                      have hsub : substr s.text s.pos.Offset (s.pos.Offset + 1 + 1) =
                          (s.text.drop s.pos.Offset.toNat).take 2 := substr_take' 2 h0 (by omega)
                      have hdropN : s.text.drop ((s.pos.Offset + 1 + 1).toNat) = [] := by
                        apply List.drop_eq_nil_of_le
                        omega
                      rw [hsub, hdrop, hdropN]
                      exact ⟨fun _ => (by decide : normalizeSlice [92, 13] = []),
                        fun h => absurd rfl h, by decide⟩
                    · have heof3' : Scanner.IsEOF { pos := { Offset := s.pos.Offset + 1 + 1, Line := s.pos.Line + 1, Col := 1 }, text := s.text, markedPos := s.markedPos, isComplexSinceMark := true } = false := by
                        simp only [Bool.not_eq_true] at heof3
                        exact heof3
                      obtain ⟨hE, hNE, hVal⟩ := ih { pos := { Offset := s.pos.Offset + 1 + 1, Line := s.pos.Line + 1, Col := 1 }, text := s.text, markedPos := s.markedPos, isComplexSinceMark := true }
                        (by dsimp only; omega)
                        (by dsimp only; omega)
                        heof3'
                        (by dsimp only
                            rw [show (s.pos.Offset + 1 + 1).toNat = s.pos.Offset.toNat + 2 by omega, hdropk]
                            rw [utf8Valid_cons_ascii _ (by omega), utf8Valid_cons_ascii _ (by omega)] at hval
                            exact hval)
                        (by dsimp only
                            rw [show (s.pos.Offset + 1 + 1).toNat = s.pos.Offset.toNat + 2 by omega, hdropk]
                            exact hasDoubleBackslash_drop 2 _ hdb)
                      dsimp only at hE hNE hVal
                      have hmono3 := (Pop_mono ({ pos := { Offset := s.pos.Offset + 1 + 1, Line := s.pos.Line + 1, Col := 1 }, text := s.text, markedPos := s.markedPos, isComplexSinceMark := true } : Scanner)).1
                      dsimp only at hmono3
                      have hpre : substr s.text s.pos.Offset (s.pos.Offset + 1 + 1) = [92, 13] := by
                        have h' : substr s.text s.pos.Offset (s.pos.Offset + 1 + 1) =
                            (s.text.drop s.pos.Offset.toNat).take 2 := substr_take' 2 h0 (by omega)
                        rw [h', hdrop]
                        rfl
                      have hvh : ¬((([92, 13] : List Nat)).getLast? = some 13 ∧
                          (substr s.text (s.pos.Offset + 1 + 1) ((Scanner.Pop ({ pos := { Offset := s.pos.Offset + 1 + 1, Line := s.pos.Line + 1, Col := 1 }, text := s.text, markedPos := s.markedPos, isComplexSinceMark := true } : Scanner)).2.pos.Offset)).head? = some 10) := by
                        rintro ⟨-, hh⟩
                        rw [substr] at hh
                        by_cases hk : 1 ≤ (((Scanner.Pop ({ pos := { Offset := s.pos.Offset + 1 + 1, Line := s.pos.Line + 1, Col := 1 }, text := s.text, markedPos := s.markedPos, isComplexSinceMark := true } : Scanner)).2.pos.Offset - (s.pos.Offset + 1 + 1)).toNat)
                        · rw [head?_take hk] at hh
                          rw [show (s.pos.Offset + 1 + 1).toNat = s.pos.Offset.toNat + 2 by omega, hdropk] at hh
                          exact h10' hh
                        · have hz : (((Scanner.Pop ({ pos := { Offset := s.pos.Offset + 1 + 1, Line := s.pos.Line + 1, Col := 1 }, text := s.text, markedPos := s.markedPos, isComplexSinceMark := true } : Scanner)).2.pos.Offset - (s.pos.Offset + 1 + 1)).toNat) = 0 := by
                            omega
                          rw [hz] at hh
                          simp at hh
                      rw [substr_split h0 (by omega) hmono3, hpre]
                      rw [normalizeSlice_append [92, 13] _ hvh (fun h => absurd h (by decide))]
                      rw [(by decide : normalizeSlice [92, 13] = ([] : List Nat)), List.nil_append]
                      exact ⟨hE, hNE, hVal⟩
                · -- literal backslash: the lookahead pop never yields LF here
                  have hlit : (Scanner.Pop { pos := { Offset := s.pos.Offset + 1, Line := s.pos.Line, Col := s.pos.Col + 1 }, text := s.text, markedPos := s.markedPos, isComplexSinceMark := s.isComplexSinceMark }).1 ≠ 10 := by
                    by_cases hdlt : d < 0x80
                    · rw [pop_plain h0S1 hdropS1 hdlt hd10 hd13 hd92]
                      dsimp only
                      intro h
                      exact hd10 (by exact_mod_cast h)
                    · rw [pop_other h0S1 hdropS1 (by omega)]
                      dsimp only
                      have hge := decodeRune_val_ge d r2 (by omega)
                      intro h
                      rw [h] at hge
                      omega
                  rw [pop_backslash_lit h0 hdrop hlit]
                  dsimp only
                  have hsub : substr s.text s.pos.Offset (s.pos.Offset + 1) =
                      (s.text.drop s.pos.Offset.toNat).take 1 := substr_take' 1 h0 (by omega)
                  rw [hsub, hdrop, hto1, hdrop1]
                  refine ⟨fun h => absurd h (by decide), fun _ => ?_, ?_⟩
                  · exact (by decide : normalizeSlice [92] = encodeRune 92)
                  · rw [utf8Valid_cons_ascii _ (by omega)] at hval
                    exact hval
        · by_cases hblt : b < 0x80
          · -- plain ASCII chunk [b]
            rw [pop_plain h0 hdrop hblt hb10 hb13 hb92]
            dsimp only
            have hsub : substr s.text s.pos.Offset (s.pos.Offset + 1) =
                (s.text.drop s.pos.Offset.toNat).take 1 := substr_take' 1 h0 (by omega)
            rw [hsub, hdrop, hto1, hdrop1]
            refine ⟨fun h => ?_, fun _ => ?_, ?_⟩
            · rw [EOF] at h
              exact absurd h (by omega)
            · have hcl : normalizeSlice ((b :: r).take 1) = (b :: r).take 1 := by
                apply normalizeSlice_clean
                · intro hm
                  simp only [List.take_succ_cons, List.take_zero, List.mem_singleton] at hm
                  exact hb13 hm.symm
                · apply hasEscPair_no92
                  intro hm
                  simp only [List.take_succ_cons, List.take_zero, List.mem_singleton] at hm
                  exact hb92 hm.symm
              rw [hcl]
              rw [encodeRune_small b hblt]
              rfl
            · rw [utf8Valid_cons_ascii _ hblt] at hval
              exact hval
          · -- multibyte chunk: the decoded rune re-encodes to the raw bytes
            have hbge : 0x80 ≤ b := by omega
            rw [pop_other h0 hdrop hbge]
            dsimp only
            have hwle : (decodeRune (b :: r)).2 ≤ (b :: r).length := decodeRune_width_le _
            have hsub : substr s.text s.pos.Offset
                (s.pos.Offset + ((decodeRune (b :: r)).2 : Int)) =
                (s.text.drop s.pos.Offset.toNat).take (decodeRune (b :: r)).2 :=
              substr_take' _ h0 (by omega)
            have htow : (s.pos.Offset + ((decodeRune (b :: r)).2 : Int)).toNat =
                s.pos.Offset.toNat + (decodeRune (b :: r)).2 := by omega
            have hdropw := drop_shift hdrop ((decodeRune (b :: r)).2)
            rw [hsub, hdrop, htow, hdropw]
            obtain ⟨henc, hvdrop⟩ := utf8Valid_decode b r hbge hval
            have hge := decodeRune_chunk_ge b r hbge
            have hvge := decodeRune_val_ge b r hbge
            refine ⟨fun h => ?_, fun _ => ?_, hvdrop⟩
            · rw [EOF] at h
              rw [h] at hvge
              omega
            · have hcl : normalizeSlice ((b :: r).take (decodeRune (b :: r)).2) =
                  (b :: r).take (decodeRune (b :: r)).2 := by
                apply normalizeSlice_clean
                · intro hm
                  have := hge 13 hm
                  omega
                · apply hasEscPair_no92
                  intro hm
                  have := hge 92 hm
                  omega
              rw [hcl, henc]

/-! ## Full pop runs reconstruct the normalized slice -/

theorem popNState_of_isEOF : ∀ (n : Nat) (s : Scanner), s.IsEOF = true → popNState n s = s := by
  intro n
  induction n with
  | zero => intro s _; rfl
  | succ n ih =>
    intro s h
    simp only [popNState]
    rw [Pop_of_isEOF s h]
    exact ih s h

theorem popNState_state : ∀ (n : Nat) (s : Scanner),
    (popNState n s).text = s.text ∧ (popNState n s).markedPos = s.markedPos := by
  intro n
  induction n with
  | zero => intro s; exact ⟨rfl, rfl⟩
  | succ n ih =>
    intro s
    simp only [popNState]
    rcases ih (s.Pop).2 with ⟨h1, h2⟩
    rcases Pop_state s with ⟨h3, h4⟩
    exact ⟨by rw [h1, h3], by rw [h2, h4]⟩

-- The state after a full pop run is the state after iterating `Pop`: once the
-- sentinel is produced the scanner is at end of input and further pops are
-- identities.
theorem popAllFuel_state_popN (f : Nat) : ∀ s : Scanner,
    (popAllFuel f s).2 = popNState f s := by
  induction f with
  | zero => intro s; rfl
  | succ f ih =>
    intro s
    simp only [popAllFuel, popNState]
    split
    · rename_i heq
      dsimp only
      exact (popNState_of_isEOF f _ (Pop_eof_isEOF s heq)).symm
    · dsimp only
      exact ih _

theorem popAllFuel_off_mono (f : Nat) : ∀ s : Scanner,
    s.pos.Offset ≤ ((popAllFuel f s).2).pos.Offset := by
  induction f with
  | zero => intro s; exact le_refl _
  | succ f ih =>
    intro s
    simp only [popAllFuel]
    split
    · exact (Pop_mono s).1
    · exact le_trans (Pop_mono s).1 (ih (s.Pop).2)

-- A full pop run over valid UTF-8 input with no two consecutive backslashes:
-- concatenating the UTF-8 encodings of the produced runes yields exactly the
-- normalized raw byte range the run consumed.
theorem popAllFuel_norm (f : Nat) : ∀ s : Scanner,
    0 ≤ s.pos.Offset →
    utf8Valid (s.text.drop s.pos.Offset.toNat) = true →
    hasDoubleBackslash (s.text.drop s.pos.Offset.toNat) = false →
    (((popAllFuel f s).1.map encodeRune).flatten) =
      normalizeSlice (substr s.text s.pos.Offset (((popAllFuel f s).2).pos.Offset)) := by
  induction f with
  | zero =>
    intro s h0 _ _
    simp only [popAllFuel]
    have hsub : substr s.text s.pos.Offset s.pos.Offset = [] := by
      rw [substr]
      have h : (s.pos.Offset - s.pos.Offset).toNat = 0 := by omega
      rw [h]
      simp
    rw [hsub, normalizeSlice_nil]
    rfl
  | succ f ih =>
    intro s h0 hval hdb
    by_cases he : s.IsEOF = true
    · simp only [popAllFuel]
      rw [Pop_of_isEOF s he]
      dsimp only
      rw [if_pos rfl]
      dsimp only
      have hsub : substr s.text s.pos.Offset s.pos.Offset = [] := by
        rw [substr]
        have h : (s.pos.Offset - s.pos.Offset).toNat = 0 := by omega
        rw [h]
        simp
      rw [hsub, normalizeSlice_nil]
      rfl
    · have hne : s.IsEOF = false := by
        simp only [Bool.not_eq_true] at he
        exact he
      obtain ⟨hE, hNE, hVal⟩ := pop_chunk_norm (s.text.length) s (by omega) h0 hne hval hdb
      obtain ⟨hchne, hcb13, hcb92, _⟩ := pop_chunk (s.text.length) s (by omega) h0 hne
      simp only [popAllFuel]
      split
      · rename_i heq
        dsimp only
        simp only [List.map_nil, List.flatten_nil]
        exact (hE heq).symm
      · rename_i hne2
        dsimp only
        simp only [List.map_cons, List.flatten_cons]
        have hmid : s.pos.Offset ≤ (s.Pop).2.pos.Offset := (Pop_mono s).1
        have h0mid : (0 : Int) ≤ (s.Pop).2.pos.Offset := le_trans h0 hmid
        have hfin : (s.Pop).2.pos.Offset ≤ ((popAllFuel f (s.Pop).2).2).pos.Offset :=
          popAllFuel_off_mono f (s.Pop).2
        rw [substr_split h0 hmid hfin]
        have hb1 : ¬((substr s.text s.pos.Offset ((s.Pop).2.pos.Offset)).getLast? = some 13 ∧
            (substr s.text ((s.Pop).2.pos.Offset) (((popAllFuel f (s.Pop).2).2).pos.Offset)).head?
              = some 10) := by
          rintro ⟨hl, hh⟩
          rw [substr] at hh
          by_cases hk : 1 ≤ ((((popAllFuel f (s.Pop).2).2).pos.Offset - (s.Pop).2.pos.Offset).toNat)
          · rw [head?_take hk] at hh
            exact hcb13 hl hh
          · have hz : ((((popAllFuel f (s.Pop).2).2).pos.Offset - (s.Pop).2.pos.Offset).toNat) = 0 := by
              omega
            rw [hz] at hh
            simp at hh
        have hb2 : (substr s.text s.pos.Offset ((s.Pop).2.pos.Offset)).getLast? = some 92 →
            (substr s.text ((s.Pop).2.pos.Offset) (((popAllFuel f (s.Pop).2).2).pos.Offset)).head?
              ≠ some 10 ∧
            (substr s.text ((s.Pop).2.pos.Offset) (((popAllFuel f (s.Pop).2).2).pos.Offset)).head?
              ≠ some 13 := by
          intro hl
          rw [substr]
          by_cases hk : 1 ≤ ((((popAllFuel f (s.Pop).2).2).pos.Offset - (s.Pop).2.pos.Offset).toNat)
          · rw [head?_take hk]
            exact hcb92 hl
          · have hz : ((((popAllFuel f (s.Pop).2).2).pos.Offset - (s.Pop).2.pos.Offset).toNat) = 0 := by
              omega
            rw [hz]
            simp
        rw [normalizeSlice_append _ _ hb1 hb2]
        rw [hNE hne2]
        have hval' : utf8Valid (((s.Pop).2.text).drop (((s.Pop).2.pos.Offset).toNat)) = true := by
          rw [(Pop_state s).1]
          exact hVal
        have hdb' : hasDoubleBackslash (((s.Pop).2.text).drop (((s.Pop).2.pos.Offset).toNat))
            = false := by
          rw [(Pop_state s).1]
          have hsh : s.text.drop (((s.Pop).2.pos.Offset).toNat) =
              (s.text.drop s.pos.Offset.toNat).drop
                (((s.Pop).2.pos.Offset).toNat - s.pos.Offset.toNat) := by
            rw [List.drop_drop]
            congr 1
            omega
          rw [hsh]
          exact hasDoubleBackslash_drop _ _ hdb
        have hrec := ih (s.Pop).2 h0mid hval' hdb'
        rw [(Pop_state s).1] at hrec
        rw [hrec]

/-- C2 (amended): for every text that is valid UTF-8 and contains no two
consecutive backslashes, popping from a fresh scanner (mark at the start)
until the sentinel and concatenating the popped characters (as text, i.e.
UTF-8 encoded) reconstructs exactly what `Slice` then returns.  Without the
two restrictions the claim fails: an invalid byte pops as U+FFFD whose
encoding differs from the raw byte, and chained escapes consume a
double backslash region that `Slice`'s flat replacement does not delete
(see the counterexample). -/
theorem C2_pops_reconstruct_slice (text : List Nat)
    (hval : utf8Valid text = true) (hdb : hasDoubleBackslash text = false) :
    ((popAll (NewScanner text)).2).Slice =
      some (((popAll (NewScanner text)).1.map encodeRune).flatten) := by
  have hnorm : (((popAll (NewScanner text)).1.map encodeRune).flatten) =
      normalizeSlice (substr text 0 (((popAll (NewScanner text)).2).pos.Offset)) := by
    rw [popAll]
    exact popAllFuel_norm _ (NewScanner text) (le_refl 0) hval hdb
  have hstate : (popAll (NewScanner text)).2 = popNState (text.length + 1) (NewScanner text) := by
    rw [popAll]
    exact popAllFuel_state_popN _ _
  have hInv : ReachInv ((popAll (NewScanner text)).2) := by
    rw [hstate]
    exact reachInv_popN _ _ (reachInv_mark (NewScanner text) (le_refl 0))
  have htext : ((popAll (NewScanner text)).2).text = text := by
    rw [hstate]
    exact (popNState_state _ _).1
  have hmark : ((popAll (NewScanner text)).2).markedPos =
      { Offset := 0, Line := 1, Col := 1 } := by
    rw [hstate]
    exact (popNState_state _ _).2
  rcases hInv with ⟨-, hmc, hcl, -, -, hclean⟩
  rw [hmark] at hmc
  dsimp only at hmc
  rw [htext, hmark] at hcl
  dsimp only at hcl
  rw [Scanner.Slice, htext, hmark]
  dsimp only
  by_cases hlen : (text.length : Int) ≤ 0
  · rw [if_pos hlen]
    have h0t : text = [] := by
      rcases text with _ | ⟨c, tl⟩
      · rfl
      · exfalso
        simp only [List.length_cons] at hlen
        omega
    subst h0t
    decide
  · rw [if_neg hlen]
    have hub : ((popAll (NewScanner text)).2).pos.Offset ≤ (text.length : Int) := by
      rcases hcl with h | h
      · exact h
      · omega
    have hcond : (0 : Int) ≤ 0 ∧
        (0 : Int) ≤ ((popAll (NewScanner text)).2).pos.Offset ∧
        ((popAll (NewScanner text)).2).pos.Offset ≤ (text.length : Int) :=
      ⟨le_refl 0, hmc, hub⟩
    rw [if_pos hcond]
    try dsimp only
    by_cases hflag : ((popAll (NewScanner text)).2).isComplexSinceMark = true
    · rw [if_pos hflag, hnorm]
    · rw [if_neg hflag, hnorm]
      have hfl : ((popAll (NewScanner text)).2).isComplexSinceMark = false := by
        simp only [Bool.not_eq_true] at hflag
        exact hflag
      obtain ⟨h13, hp⟩ := hclean hfl
      rw [htext, hmark] at h13 hp
      dsimp only at h13 hp
      rw [normalizeSlice_clean h13 hp]

/-- Witness for the amended C2 on the spec's own scenario: the input
`"hello\\\nworld"`, fully popped from a fresh scanner, reconstructs
`Slice`'s result, which is `"helloworld"`. -/
theorem C2_pops_reconstruct_slice_witness :
    ((popAll (NewScanner [104, 101, 108, 108, 111, 92, 10, 119, 111, 114, 108, 100])).2).Slice =
      some (((popAll (NewScanner [104, 101, 108, 108, 111, 92, 10, 119, 111, 114, 108, 100])).1.map
        encodeRune).flatten) ∧
    (((popAll (NewScanner [104, 101, 108, 108, 111, 92, 10, 119, 111, 114, 108, 100])).1.map
        encodeRune).flatten) = [104, 101, 108, 108, 111, 119, 111, 114, 108, 100] :=
  ⟨C2_pops_reconstruct_slice [104, 101, 108, 108, 111, 92, 10, 119, 111, 114, 108, 100]
    (by decide) (by decide), by decide⟩
